import Mathlib

/-!
Verification of the Veritas Swarm oracle (ETH-Oxford-2026-AI-Swarm-Oracle).

The repository ships a React UI (`veritas-swarm-ui/src/App.tsx`) whose
`mockSimulation` drives a demo run, a Solidity contract
(`contracts/VeritasOracle.sol`), and a readme describing the statistical
core (Dirichlet-multinomial aggregation, KL convergence, Fleiss' kappa,
effective sample size) implemented in a Python backend that is not part of
the source tree here.  Where a claim is decided by that absent backend the
definitions below are modelled from the spec; where a claim is decided by
code present in the tree (the mock event loop, the normal-approximation
confidence interval, the Solidity contract) the definitions are translated
from that code.
-/

namespace VeritasSwarm

/-- The vote categories, from the `Vote` type in `App.tsx`:
`type Vote = "YES" | "NO" | "NULL"`. -/
inductive Vote where
  | YES : Vote
  | NO : Vote
  | NULLV : Vote
deriving DecidableEq, Repr

/-- Count of YES / NO / NULL votes in a ballot-vote sequence, as the
PosteriorEstimator's running counts `(n_Y, n_N, n_0)`. -/
def countVotes (vs : List Vote) : ℕ × ℕ × ℕ :=
  ((vs.filter (· = Vote.YES)).length,
   (vs.filter (· = Vote.NO)).length,
   (vs.filter (· = Vote.NULLV)).length)

/-- Modelled from the spec: the backend PosteriorEstimator is not under
`src/`; per the spec, `posterior_mean(k) = (n_k + 1) / (N + 3)` with
`N = n_Y + n_N + n_0` (Dirichlet(1,1,1) prior, multinomial likelihood). -/
def posterior_mean (nY nN n0 : ℕ) : ℚ × ℚ × ℚ :=
  ((nY + 1) / (nY + nN + n0 + 3),
   (nN + 1) / (nY + nN + n0 + 3),
   (n0 + 1) / (nY + nN + n0 + 3))

/-- Claim C1: for all non-negative vote counts the reported posterior mean
is `(n_k + 1) / (N + 3)` per category, the three components sum to 1 and
each lies strictly in (0,1); with no ballots the vector is (1/3, 1/3, 1/3);
and for the ballot sequence [YES,YES,NO] then [YES,NO,NULL] (counts
(3,2,1)) the reported vector is (4/9, 3/9, 2/9). -/
theorem C1_posterior_mean :
    (∀ nY nN n0 : ℕ,
      (posterior_mean nY nN n0).1
        = (nY + 1) / (nY + nN + n0 + 3) ∧
      (posterior_mean nY nN n0).1 + (posterior_mean nY nN n0).2.1
        + (posterior_mean nY nN n0).2.2 = 1 ∧
      (0 < (posterior_mean nY nN n0).1 ∧ (posterior_mean nY nN n0).1 < 1) ∧
      (0 < (posterior_mean nY nN n0).2.1 ∧ (posterior_mean nY nN n0).2.1 < 1) ∧
      (0 < (posterior_mean nY nN n0).2.2 ∧ (posterior_mean nY nN n0).2.2 < 1)) ∧
    posterior_mean 0 0 0 = (1/3, 1/3, 1/3) ∧
    countVotes [Vote.YES, Vote.YES, Vote.NO, Vote.YES, Vote.NO, Vote.NULLV]
      = (3, 2, 1) ∧
    posterior_mean 3 2 1 = (4/9, 3/9, 2/9) := by
  refine ⟨fun nY nN n0 => ?_, by norm_num [posterior_mean], ?_⟩
  · have hden : (0 : ℚ) < (nY : ℚ) + nN + n0 + 3 := by positivity
    have hY : ((nY : ℚ) + 1) < (nY : ℚ) + nN + n0 + 3 := by
      nlinarith [Nat.cast_nonneg (α := ℚ) nN, Nat.cast_nonneg (α := ℚ) n0]
    have hN : ((nN : ℚ) + 1) < (nY : ℚ) + nN + n0 + 3 := by
      nlinarith [Nat.cast_nonneg (α := ℚ) nY, Nat.cast_nonneg (α := ℚ) n0]
    have h0 : ((n0 : ℚ) + 1) < (nY : ℚ) + nN + n0 + 3 := by
      nlinarith [Nat.cast_nonneg (α := ℚ) nY, Nat.cast_nonneg (α := ℚ) nN]
    simp only [posterior_mean]
    refine ⟨trivial, ?_, ⟨?_, ?_⟩, ⟨?_, ?_⟩, ⟨?_, ?_⟩⟩
    · field_simp; ring
    · exact div_pos (by positivity) hden
    · rw [div_lt_one hden]; exact hY
    · exact div_pos (by positivity) hden
    · rw [div_lt_one hden]; exact hN
    · exact div_pos (by positivity) hden
    · rw [div_lt_one hden]; exact h0
  · exact ⟨rfl, by norm_num [posterior_mean]⟩

/-- A ballot, from the `Ballot` type in `App.tsx`: iteration index,
archetype id, backing-model id, vote, supporting and refuting evidence id
sets, rubric-score mapping and free-text rationale. -/
structure Ballot where
  iteration : ℕ
  archetype : String
  model : String
  vote : Vote
  supporting_evidence_ids : List ℕ
  refuting_evidence_ids : List ℕ
  rubric_scores : List (String × ℚ)
  reasoning : String
deriving DecidableEq, Repr

/-! ### EffectiveSampleSizeCorrector (modelled from the spec) -/

/-- Modelled from the spec: distinct backing-model ids among the recorded
ballots (the cluster keys of the EffectiveSampleSizeCorrector, which is
part of the backend absent from `src/`). -/
def modelIds (bs : List Ballot) : List String :=
  (bs.map (fun b => b.model)).dedup

/-- Modelled from the spec: the cluster of ballots with a given
backing-model id. -/
def clusterOf (bs : List Ballot) (m : String) : List Ballot :=
  bs.filter (fun b => b.model = m)

/-- Number of ballots in a list voting a given category. -/
def voteCount (bs : List Ballot) (v : Vote) : ℕ :=
  (bs.filter (fun b => b.vote = v)).length

/-- Modelled from the spec: the proportion of a cluster's ballots matching
its most common vote (mode share). -/
def modeShare (bs : List Ballot) : ℚ :=
  (max (voteCount bs Vote.YES)
    (max (voteCount bs Vote.NO) (voteCount bs Vote.NULLV)) : ℚ) / bs.length

/-- Modelled from the spec: mean mode share across model clusters. -/
def abar (bs : List Ballot) : ℚ :=
  ((modelIds bs).map (fun m => modeShare (clusterOf bs m))).sum
    / (modelIds bs).length

/-- Modelled from the spec:
`ρ̂ = max(0, (ā − 1/3) / (1 − 1/3))`. -/
def rhoHat (bs : List Ballot) : ℚ :=
  max 0 ((abar bs - 1/3) / (1 - 1/3))

/-- Modelled from the spec: `m̄` = total ballots / number of distinct
model ids used. -/
def mbar (bs : List Ballot) : ℚ :=
  (bs.length : ℚ) / (modelIds bs).length

/-- Modelled from the spec: `n_eff = N / (1 + (m̄ − 1)·ρ̂)`, with
`n_eff = 0` when `N = 0` (no division by zero). -/
def n_eff (bs : List Ballot) : ℚ :=
  if bs.length = 0 then 0
  else (bs.length : ℚ) / (1 + (mbar bs - 1) * rhoHat bs)

/-- Two ballots, both YES, with two distinct backing-model ids: each
cluster is a singleton with mode share 1. -/
def essCounterexample : List Ballot :=
  [⟨1, "skeptic", "m1", Vote.YES, [], [], [], ""⟩,
   ⟨1, "contrarian", "m2", Vote.YES, [], [], [], ""⟩]

/-- Claim C6 as stated is false: with one ballot per distinct model id the
mean mode share is 1, so `ρ̂ = 1 ≠ 0`, yet `m̄ = 1` makes the correction
factor vanish and `n_eff = N`.  Hence "n_eff = N exactly when ρ̂ = 0"
fails in the right-to-left reading of "exactly". -/
theorem C6_counterexample :
    rhoHat essCounterexample = 1 ∧
    n_eff essCounterexample = (essCounterexample.length : ℚ) ∧
    ¬ (n_eff essCounterexample = (essCounterexample.length : ℚ) →
        rhoHat essCounterexample = 0) := by
  have hm : modelIds essCounterexample = ["m1", "m2"] := by rfl
  have hshare1 : modeShare (clusterOf essCounterexample "m1") = 1 := by
    have hy : voteCount (clusterOf essCounterexample "m1") Vote.YES = 1 := by rfl
    have hn : voteCount (clusterOf essCounterexample "m1") Vote.NO = 0 := by rfl
    have h0 : voteCount (clusterOf essCounterexample "m1") Vote.NULLV = 0 := by rfl
    have hl : (clusterOf essCounterexample "m1").length = 1 := by rfl
    rw [modeShare, hy, hn, h0, hl]; norm_num
  have hshare2 : modeShare (clusterOf essCounterexample "m2") = 1 := by
    have hy : voteCount (clusterOf essCounterexample "m2") Vote.YES = 1 := by rfl
    have hn : voteCount (clusterOf essCounterexample "m2") Vote.NO = 0 := by rfl
    have h0 : voteCount (clusterOf essCounterexample "m2") Vote.NULLV = 0 := by rfl
    have hl : (clusterOf essCounterexample "m2").length = 1 := by rfl
    rw [modeShare, hy, hn, h0, hl]; norm_num
  have habar : abar essCounterexample = 1 := by
    rw [abar, hm]
    rw [List.map_cons, List.map_cons, List.map_nil, hshare1, hshare2]
    norm_num
  have hrho : rhoHat essCounterexample = 1 := by
    rw [rhoHat, habar]; norm_num
  have hmbar : mbar essCounterexample = 1 := by
    rw [mbar, hm]
    norm_num [essCounterexample]
  have hn : n_eff essCounterexample = (essCounterexample.length : ℚ) := by
    rw [n_eff, if_neg (by norm_num [essCounterexample]), hmbar, hrho]
    norm_num [essCounterexample]
  exact ⟨hrho, hn, fun h => one_ne_zero (hrho ▸ h hn)⟩

/-- Claim C6 (amended): for every ballot list with `N > 0` the effective
sample size `N / (1 + (m̄ − 1)·ρ̂)` with `ρ̂ = max(0, (ā − 1/3)/(1 − 1/3))`
satisfies `0 < n_eff ≤ N`, and `n_eff = N` exactly when `(m̄ − 1)·ρ̂ = 0`
(rather than exactly when `ρ̂ = 0`); `n_eff = 0` when `N = 0`, with no
division by zero. -/
theorem C6_n_eff_amended (bs : List Ballot) :
    (bs.length = 0 → n_eff bs = 0) ∧
    (0 < bs.length →
      0 < n_eff bs ∧ n_eff bs ≤ (bs.length : ℚ) ∧
      (n_eff bs = (bs.length : ℚ) ↔ (mbar bs - 1) * rhoHat bs = 0)) := by
  constructor
  · intro h; simp [n_eff, h]
  · intro hpos
    have hne : bs ≠ [] := List.length_pos.mp hpos
    have hmem : bs.head hne ∈ bs := List.head_mem hne
    have hmodelsPos : 0 < (modelIds bs).length := by
      have : (bs.head hne).model ∈ modelIds bs := by
        unfold modelIds
        rw [List.mem_dedup]
        exact List.mem_map_of_mem _ hmem
      exact List.length_pos.mpr (List.ne_nil_of_mem this)
    have hmodelsLe : (modelIds bs).length ≤ bs.length := by
      calc (modelIds bs).length
          ≤ (bs.map (fun b => b.model)).length :=
            (List.dedup_sublist _).length_le
        _ = bs.length := List.length_map _ _
    have hmbar : (1 : ℚ) ≤ mbar bs := by
      unfold mbar
      rw [le_div_iff₀ (by exact_mod_cast hmodelsPos)]
      simpa using (Nat.cast_le (α := ℚ)).mpr hmodelsLe
    have hrho : (0 : ℚ) ≤ rhoHat bs := le_max_left 0 _
    have hcorr : (0 : ℚ) ≤ (mbar bs - 1) * rhoHat bs :=
      mul_nonneg (by linarith) hrho
    have hden : (1 : ℚ) ≤ 1 + (mbar bs - 1) * rhoHat bs := by linarith
    have hdenPos : (0 : ℚ) < 1 + (mbar bs - 1) * rhoHat bs := by linarith
    have hNpos : (0 : ℚ) < (bs.length : ℚ) := by exact_mod_cast hpos
    have hval : n_eff bs = (bs.length : ℚ) / (1 + (mbar bs - 1) * rhoHat bs) := by
      unfold n_eff
      rw [if_neg (Nat.pos_iff_ne_zero.mp hpos)]
    refine ⟨?_, ?_, ?_⟩
    · rw [hval]; exact div_pos hNpos hdenPos
    · rw [hval]; exact div_le_self (le_of_lt hNpos) hden
    · rw [hval]
      rw [div_eq_iff (ne_of_gt hdenPos)]
      constructor
      · intro h
        have : (bs.length : ℚ) * ((mbar bs - 1) * rhoHat bs) = 0 := by ring_nf; nlinarith [h]
        rcases mul_eq_zero.mp this with h' | h'
        · exact absurd h' (ne_of_gt hNpos)
        · exact h'
      · intro h; rw [h]; ring

/-- Witness for the amended C6 on the two-ballot counterexample input. -/
theorem C6_n_eff_amended_witness :
    (essCounterexample.length = 0 → n_eff essCounterexample = 0) ∧
    (0 < essCounterexample.length →
      0 < n_eff essCounterexample ∧
      n_eff essCounterexample ≤ (essCounterexample.length : ℚ) ∧
      (n_eff essCounterexample = (essCounterexample.length : ℚ) ↔
        (mbar essCounterexample - 1) * rhoHat essCounterexample = 0)) :=
  C6_n_eff_amended essCounterexample

/-! ### PosteriorEstimator credible intervals -/

/-- `clamp01` from `App.tsx` / `part_000`:
`Math.max(0, Math.min(1, x))`. -/
def clamp01 (x : ℝ) : ℝ := max 0 (min 1 x)

/-- `normalApproxCI` from `src/unnamed/part_000`: normal-approximation
confidence interval `[clamp01(p - z·se), clamp01(p + z·se)]` with
`z = 1.96` and `se = sqrt(p(1-p)/n)`; `[0,0]` when `n ≤ 0`. -/
noncomputable def normalApproxCI (p : ℝ) (n : ℝ) : ℝ × ℝ :=
  if n ≤ 0 then (0, 0)
  else
    (clamp01 (p - 196/100 * Real.sqrt (p * (1 - p) / n)),
     clamp01 (p + 196/100 * Real.sqrt (p * (1 - p) / n)))

/-- Modelled from the spec: one Dirichlet sample obtained from three
independent Gamma(shape,1) draws by normalizing them to sum to 1 (the
Gamma draws themselves are injected as inputs; their distribution is a
property of the ambient randomness, not of this arithmetic). -/
def dirichletSample (g : ℚ × ℚ × ℚ) : ℚ × ℚ × ℚ :=
  (g.1 / (g.1 + g.2.1 + g.2.2),
   g.2.1 / (g.1 + g.2.1 + g.2.2),
   g.2.2 / (g.1 + g.2.1 + g.2.2))

/-- Modelled from the spec: the empirical `q`-percentile of a sample
list, i.e. the entry of the sorted list at rank `⌊q·S⌋`. -/
def percentile (xs : List ℚ) (q : ℚ) : ℚ :=
  xs.mergeSort.getD (Int.floor (q * xs.length)).toNat 0

/-- Modelled from the spec: `credible_interval(confidence, S)` for one
category, from that category's S sampled values: the
`[(1-confidence)/2, 1-(1-confidence)/2]` empirical percentiles. -/
def ciOfSamples (samples : List ℚ) (confidence : ℚ) : ℚ × ℚ :=
  (percentile samples ((1 - confidence) / 2),
   percentile samples (1 - (1 - confidence) / 2))

/-- Modelled from the spec: the three per-category credible intervals
from `S = draws.length` Dirichlet samples. -/
def credible_interval (draws : List (ℚ × ℚ × ℚ)) (confidence : ℚ) :
    (ℚ × ℚ) × (ℚ × ℚ) × (ℚ × ℚ) :=
  (ciOfSamples (draws.map (fun g => (dirichletSample g).1)) confidence,
   ciOfSamples (draws.map (fun g => (dirichletSample g).2.1)) confidence,
   ciOfSamples (draws.map (fun g => (dirichletSample g).2.2)) confidence)

lemma percentile_bounds (xs : List ℚ) (q : ℚ)
    (hx : ∀ x ∈ xs, 0 ≤ x ∧ x ≤ 1) :
    0 ≤ percentile xs q ∧ percentile xs q ≤ 1 := by
  unfold percentile
  set i := (Int.floor (q * xs.length)).toNat with hi
  by_cases hlt : i < xs.mergeSort.length
  · rw [List.getD_eq_getElem _ _ hlt]
    have hmem : xs.mergeSort[i] ∈ xs :=
      (List.mergeSort_perm xs _).mem_iff.mp (List.getElem_mem hlt)
    exact hx _ hmem
  · rw [List.getD_eq_default _ _ (not_lt.mp hlt)]
    norm_num

lemma percentile_mono (xs : List ℚ) (q₁ q₂ : ℚ)
    (h0 : 0 ≤ q₁) (h12 : q₁ ≤ q₂) (h1 : q₂ < 1) (hS : 0 < xs.length) :
    percentile xs q₁ ≤ percentile xs q₂ := by
  unfold percentile
  have hlen : xs.mergeSort.length = xs.length := List.length_mergeSort ..
  have hq2S : q₂ * (xs.length : ℚ) < (xs.length : ℚ) := by
    have hcast : (0 : ℚ) < (xs.length : ℚ) := by exact_mod_cast hS
    nlinarith
  have hfloor2 : Int.floor (q₂ * (xs.length : ℚ)) < ((xs.length : ℕ) : ℤ) :=
    Int.floor_lt.mpr (by exact_mod_cast hq2S)
  have hge0 : (0 : ℤ) ≤ Int.floor (q₁ * (xs.length : ℚ)) := by
    apply Int.floor_nonneg.mpr
    positivity
  have hmono : Int.floor (q₁ * (xs.length : ℚ)) ≤ Int.floor (q₂ * (xs.length : ℚ)) :=
    Int.floor_le_floor (mul_le_mul_of_nonneg_right h12 (by positivity))
  have hi2 : (Int.floor (q₂ * (xs.length : ℚ))).toNat < xs.mergeSort.length := by
    rw [hlen]; omega
  have hi1 : (Int.floor (q₁ * (xs.length : ℚ))).toNat < xs.mergeSort.length := by
    rw [hlen]; omega
  have hii : (Int.floor (q₁ * (xs.length : ℚ))).toNat
      ≤ (Int.floor (q₂ * (xs.length : ℚ))).toNat := by omega
  rw [List.getD_eq_getElem _ _ hi1, List.getD_eq_getElem _ _ hi2]
  have hs := List.sorted_mergeSort' xs
  have := hs.rel_get_of_le (a := ⟨_, hi1⟩) (b := ⟨_, hi2⟩) (by exact hii)
  simpa using this

lemma clamp01_nonneg (x : ℝ) : 0 ≤ clamp01 x := le_max_left 0 _

lemma clamp01_le_one (x : ℝ) : clamp01 x ≤ 1 :=
  max_le (by norm_num) (min_le_left 1 x)

lemma clamp01_mono {x y : ℝ} (h : x ≤ y) : clamp01 x ≤ clamp01 y :=
  max_le_max le_rfl (min_le_min le_rfl h)

lemma ciOfSamples_ok (samples : List ℚ) (confidence : ℚ)
    (hc0 : 0 < confidence) (hc1 : confidence < 1)
    (hlen : 0 < samples.length)
    (hall : ∀ x ∈ samples, 0 ≤ x ∧ x ≤ 1) :
    (ciOfSamples samples confidence).1 ≤ (ciOfSamples samples confidence).2 ∧
    0 ≤ (ciOfSamples samples confidence).1 ∧
    (ciOfSamples samples confidence).2 ≤ 1 := by
  unfold ciOfSamples
  refine ⟨?_, (percentile_bounds samples _ hall).1,
    (percentile_bounds samples _ hall).2⟩
  exact percentile_mono samples _ _ (by linarith) (by linarith) (by linarith) hlen

/-- Claim C2: each Dirichlet draw is three injected positive Gamma values
normalized to sum to 1; for every confidence in (0,1) and positive sample
count the per-category interval taken at the
`[(1-confidence)/2, 1-(1-confidence)/2]` empirical percentiles satisfies
lower ≤ upper with both endpoints in [0,1]; moreover the in-tree
`normalApproxCI` of `src/unnamed/part_000` also returns an interval with
lower ≤ upper and both endpoints in [0,1]. -/
theorem C2_credible_interval (draws : List (ℚ × ℚ × ℚ)) (confidence : ℚ)
    (hc0 : 0 < confidence) (hc1 : confidence < 1)
    (hS : 0 < draws.length)
    (hpos : ∀ g ∈ draws, 0 < g.1 ∧ 0 < g.2.1 ∧ 0 < g.2.2) :
    (∀ g ∈ draws,
      (dirichletSample g).1 + (dirichletSample g).2.1
        + (dirichletSample g).2.2 = 1) ∧
    (∀ ci ∈ [(credible_interval draws confidence).1,
             (credible_interval draws confidence).2.1,
             (credible_interval draws confidence).2.2],
      ci.1 ≤ ci.2 ∧ 0 ≤ ci.1 ∧ ci.2 ≤ 1) ∧
    (∀ p n : ℝ, (normalApproxCI p n).1 ≤ (normalApproxCI p n).2 ∧
      0 ≤ (normalApproxCI p n).1 ∧ (normalApproxCI p n).2 ≤ 1) := by
  have hsumpos : ∀ g ∈ draws, (0 : ℚ) < g.1 + g.2.1 + g.2.2 := by
    intro g hg
    obtain ⟨h1, h2, h3⟩ := hpos g hg
    linarith
  refine ⟨?_, ?_, ?_⟩
  · intro g hg
    have := hsumpos g hg
    unfold dirichletSample
    field_simp
  · have hcomp : ∀ f : ℚ × ℚ × ℚ → ℚ,
        (∀ g ∈ draws, 0 ≤ f (dirichletSample g) ∧ f (dirichletSample g) ≤ 1) →
        (∀ x ∈ draws.map (fun g => f (dirichletSample g)), 0 ≤ x ∧ x ≤ 1) := by
      intro f hf x hx
      obtain ⟨g, hg, rfl⟩ := List.mem_map.mp hx
      exact hf g hg
    have hbound1 : ∀ g ∈ draws,
        0 ≤ (dirichletSample g).1 ∧ (dirichletSample g).1 ≤ 1 := by
      intro g hg
      obtain ⟨h1, h2, h3⟩ := hpos g hg
      have hs := hsumpos g hg
      unfold dirichletSample
      constructor
      · positivity
      · rw [div_le_one hs]; linarith
    have hbound2 : ∀ g ∈ draws,
        0 ≤ (dirichletSample g).2.1 ∧ (dirichletSample g).2.1 ≤ 1 := by
      intro g hg
      obtain ⟨h1, h2, h3⟩ := hpos g hg
      have hs := hsumpos g hg
      unfold dirichletSample
      constructor
      · positivity
      · rw [div_le_one hs]; linarith
    have hbound3 : ∀ g ∈ draws,
        0 ≤ (dirichletSample g).2.2 ∧ (dirichletSample g).2.2 ≤ 1 := by
      intro g hg
      obtain ⟨h1, h2, h3⟩ := hpos g hg
      have hs := hsumpos g hg
      unfold dirichletSample
      constructor
      · positivity
      · rw [div_le_one hs]; linarith
    have hlen : ∀ f : ℚ × ℚ × ℚ → ℚ,
        0 < (draws.map (fun g => f (dirichletSample g))).length := by
      intro f; simpa using hS
    intro ci hci
    simp only [List.mem_cons, List.not_mem_nil, or_false] at hci
    rcases hci with rfl | rfl | rfl
    · exact ciOfSamples_ok _ _ hc0 hc1 (hlen (fun t => t.1))
        (hcomp (fun t => t.1) hbound1)
    · exact ciOfSamples_ok _ _ hc0 hc1 (hlen (fun t => t.2.1))
        (hcomp (fun t => t.2.1) hbound2)
    · exact ciOfSamples_ok _ _ hc0 hc1 (hlen (fun t => t.2.2))
        (hcomp (fun t => t.2.2) hbound3)
  · intro p n
    unfold normalApproxCI
    by_cases hn : n ≤ 0
    · simp [hn]
    · rw [if_neg hn]
      have hsqrt : (0 : ℝ) ≤ 196/100 * Real.sqrt (p * (1 - p) / n) := by
        positivity

      exact ⟨clamp01_mono (by linarith), clamp01_nonneg _, clamp01_le_one _⟩

/-- Witness for C2: the three-sample draw list
`[(1,1,1), (2,1,1), (1,2,3)]` at 95% confidence. -/
theorem C2_credible_interval_witness :
    ((0 : ℚ) < 95/100 ∧ (95/100 : ℚ) < 1 ∧
      0 < ([((1:ℚ),(1:ℚ),(1:ℚ)), (2,1,1), (1,2,3)] : List (ℚ × ℚ × ℚ)).length ∧
      (∀ g ∈ ([((1:ℚ),(1:ℚ),(1:ℚ)), (2,1,1), (1,2,3)] : List (ℚ × ℚ × ℚ)),
        0 < g.1 ∧ 0 < g.2.1 ∧ 0 < g.2.2)) ∧
    ((∀ g ∈ ([((1:ℚ),(1:ℚ),(1:ℚ)), (2,1,1), (1,2,3)] : List (ℚ × ℚ × ℚ)),
      (dirichletSample g).1 + (dirichletSample g).2.1
        + (dirichletSample g).2.2 = 1) ∧
    (∀ ci ∈ [(credible_interval [((1:ℚ),(1:ℚ),(1:ℚ)), (2,1,1), (1,2,3)] (95/100)).1,
             (credible_interval [((1:ℚ),(1:ℚ),(1:ℚ)), (2,1,1), (1,2,3)] (95/100)).2.1,
             (credible_interval [((1:ℚ),(1:ℚ),(1:ℚ)), (2,1,1), (1,2,3)] (95/100)).2.2],
      ci.1 ≤ ci.2 ∧ 0 ≤ ci.1 ∧ ci.2 ≤ 1) ∧
    (∀ p n : ℝ, (normalApproxCI p n).1 ≤ (normalApproxCI p n).2 ∧
      0 ≤ (normalApproxCI p n).1 ∧ (normalApproxCI p n).2 ≤ 1)) :=
  ⟨⟨by norm_num, by norm_num, by norm_num, by decide⟩,
   C2_credible_interval _ _ (by norm_num) (by norm_num) (by norm_num) (by decide)⟩

/-! ### ReliabilityAnalyzer: Fleiss' kappa (modelled from the spec) -/

/-- Sum of squared per-category counts for one iteration (subject) of the
Fleiss table. -/
def rowSq (n : ℕ → ℕ → ℕ) (t : ℕ) : ℕ :=
  ∑ k ∈ Finset.range 3, (n t k) ^ 2

/-- Total count of category `k` over all `T` iterations of the Fleiss
table. -/
def colSum (n : ℕ → ℕ → ℕ) (T k : ℕ) : ℕ :=
  ∑ t ∈ Finset.range T, n t k

/-- Modelled from the spec:
`P̄ = (1/T) Σ_t [(Σ_k n_tk² − M) / (M(M−1))]`. -/
def Pbar (n : ℕ → ℕ → ℕ) (T M : ℕ) : ℚ :=
  (∑ t ∈ Finset.range T,
    (((rowSq n t : ℚ) - M) / ((M : ℚ) * ((M : ℚ) - 1)))) / T

/-- Modelled from the spec: `P̄e = Σ_k ((Σ_t n_tk) / (T·M))²`. -/
def Pe (n : ℕ → ℕ → ℕ) (T M : ℕ) : ℚ :=
  ∑ k ∈ Finset.range 3, ((colSum n T k : ℚ) / ((T : ℚ) * M)) ^ 2

/-- Modelled from the spec: the ReliabilityAnalyzer is part of the absent
backend; `κ = (P̄ − P̄e) / (1 − P̄e)`, reported as an explicit undefined
value (`none`), never a NaN, when `T < 2`, or when `P̄e = 1` with
`P̄ < 1`; `κ = 1` when `P̄e = 1` and `P̄ = 1`. -/
def fleiss_kappa (n : ℕ → ℕ → ℕ) (T M : ℕ) : Option ℚ :=
  if T < 2 then none
  else if Pe n T M = 1 then
    (if Pbar n T M = 1 then some 1 else none)
  else some ((Pbar n T M - Pe n T M) / (1 - Pe n T M))

lemma colSum_total (n : ℕ → ℕ → ℕ) (T M : ℕ)
    (hrow : ∀ t, t < T → ∑ k ∈ Finset.range 3, n t k = M) :
    ∑ k ∈ Finset.range 3, colSum n T k = T * M := by
  unfold colSum
  rw [Finset.sum_comm]
  calc ∑ t ∈ Finset.range T, ∑ k ∈ Finset.range 3, n t k
      = ∑ t ∈ Finset.range T, M :=
        Finset.sum_congr rfl (fun t ht => hrow t (Finset.mem_range.mp ht))
    _ = T * M := by rw [Finset.sum_const, Finset.card_range, smul_eq_mul]

lemma Pe_nonneg (n : ℕ → ℕ → ℕ) (T M : ℕ) : 0 ≤ Pe n T M :=
  Finset.sum_nonneg (fun _k _ => sq_nonneg _)

lemma Pe_le_one (n : ℕ → ℕ → ℕ) (T M : ℕ) (hT : 0 < T) (hM : 0 < M)
    (hrow : ∀ t, t < T → ∑ k ∈ Finset.range 3, n t k = M) :
    Pe n T M ≤ 1 := by
  have htot : ((colSum n T 0 : ℚ) + colSum n T 1 + colSum n T 2)
      = (T : ℚ) * M := by
    have := colSum_total n T M hrow
    have hexp : colSum n T 0 + colSum n T 1 + colSum n T 2 = T * M := by
      simpa [Finset.sum_range_succ] using this
    exact_mod_cast hexp
  have hTM : (0 : ℚ) < (T : ℚ) * M := by
    have h1 : (0:ℚ) < (T : ℚ) := by exact_mod_cast hT
    have h2 : (0:ℚ) < (M : ℚ) := by exact_mod_cast hM
    positivity
  have ha : (0:ℚ) ≤ (colSum n T 0 : ℚ) := by positivity
  have hb : (0:ℚ) ≤ (colSum n T 1 : ℚ) := by positivity
  have hc : (0:ℚ) ≤ (colSum n T 2 : ℚ) := by positivity
  unfold Pe
  rw [Finset.sum_range_succ, Finset.sum_range_succ, Finset.sum_range_succ,
    Finset.sum_range_zero]
  rw [div_pow, div_pow, div_pow, zero_add, div_add_div_same, div_add_div_same,
    div_le_one (by positivity)]
  nlinarith [htot, ha, hb, hc, hTM]

lemma rowSq_le (n : ℕ → ℕ → ℕ) (t M : ℕ)
    (ht : ∑ k ∈ Finset.range 3, n t k = M) : rowSq n t ≤ M ^ 2 := by
  have hexp : n t 0 + n t 1 + n t 2 = M := by
    simpa [Finset.sum_range_succ] using ht
  unfold rowSq
  rw [Finset.sum_range_succ, Finset.sum_range_succ, Finset.sum_range_succ,
    Finset.sum_range_zero]
  nlinarith [hexp]

lemma Pbar_le_one (n : ℕ → ℕ → ℕ) (T M : ℕ) (hT : 0 < T) (hM : 2 ≤ M)
    (hrow : ∀ t, t < T → ∑ k ∈ Finset.range 3, n t k = M) :
    Pbar n T M ≤ 1 := by
  have hMq : (2 : ℚ) ≤ (M : ℚ) := by exact_mod_cast hM
  have hden : (0 : ℚ) < (M : ℚ) * ((M : ℚ) - 1) := by nlinarith
  have hterm : ∀ t ∈ Finset.range T,
      ((rowSq n t : ℚ) - M) / ((M : ℚ) * ((M : ℚ) - 1)) ≤ 1 := by
    intro t ht
    rw [div_le_one hden]
    have h1 : rowSq n t ≤ M ^ 2 := rowSq_le n t M (hrow t (Finset.mem_range.mp ht))
    have h2 : (rowSq n t : ℚ) ≤ ((M : ℚ)) ^ 2 := by exact_mod_cast h1
    nlinarith
  unfold Pbar
  rw [div_le_one (by exact_mod_cast hT)]
  calc ∑ t ∈ Finset.range T,
        (((rowSq n t : ℚ) - M) / ((M : ℚ) * ((M : ℚ) - 1)))
      ≤ ∑ _t ∈ Finset.range T, (1 : ℚ) := Finset.sum_le_sum hterm
    _ = (T : ℚ) := by rw [Finset.sum_const, Finset.card_range, nsmul_eq_mul, mul_one]

lemma colSq_le_key (n : ℕ → ℕ → ℕ) (T : ℕ) :
    ∑ k ∈ Finset.range 3, ((colSum n T k : ℚ)) ^ 2
      ≤ (T : ℚ) * ∑ t ∈ Finset.range T, (rowSq n t : ℚ) := by
  have hper : ∀ k, ((colSum n T k : ℚ)) ^ 2
      ≤ (T : ℚ) * ∑ t ∈ Finset.range T, ((n t k : ℚ)) ^ 2 := by
    intro k
    have hcast : (colSum n T k : ℚ) = ∑ t ∈ Finset.range T, ((n t k : ℚ)) := by
      unfold colSum
      push_cast
      rfl
    rw [hcast]
    simpa [Finset.card_range] using
      sq_sum_le_card_mul_sum_sq
        (s := Finset.range T) (f := fun t => ((n t k : ℚ)))
  calc ∑ k ∈ Finset.range 3, ((colSum n T k : ℚ)) ^ 2
      ≤ ∑ k ∈ Finset.range 3,
          ((T : ℚ) * ∑ t ∈ Finset.range T, ((n t k : ℚ)) ^ 2) :=
        Finset.sum_le_sum (fun k _ => hper k)
    _ = (T : ℚ) * ∑ k ∈ Finset.range 3, ∑ t ∈ Finset.range T, ((n t k : ℚ)) ^ 2 := by
        rw [Finset.mul_sum]
    _ = (T : ℚ) * ∑ t ∈ Finset.range T, (rowSq n t : ℚ) := by
        rw [Finset.sum_comm]
        congr 1
        refine Finset.sum_congr rfl (fun t _ => ?_)
        unfold rowSq
        push_cast
        rfl

lemma kappa_formula_bounds (n : ℕ → ℕ → ℕ) (T M : ℕ)
    (hT : 2 ≤ T) (hM : 2 ≤ M)
    (hrow : ∀ t, t < T → ∑ k ∈ Finset.range 3, n t k = M)
    (hPe : Pe n T M ≠ 1) :
    -1 ≤ (Pbar n T M - Pe n T M) / (1 - Pe n T M) ∧
    (Pbar n T M - Pe n T M) / (1 - Pe n T M) ≤ 1 := by
  have hTq : (2 : ℚ) ≤ (T : ℚ) := by exact_mod_cast hT
  have hMq : (2 : ℚ) ≤ (M : ℚ) := by exact_mod_cast hM
  have hT0 : 0 < T := by omega
  have hM0 : 0 < M := by omega
  have hPeLt : Pe n T M < 1 :=
    lt_of_le_of_ne (Pe_le_one n T M hT0 hM0 hrow) hPe
  have hden : (0 : ℚ) < 1 - Pe n T M := by linarith
  have hPbarLe : Pbar n T M ≤ 1 := Pbar_le_one n T M hT0 hM hrow
  -- identity: (M−1)·P̄ + 1 = S / (T·M) with S the total of squared rows
  have hMne : (M : ℚ) ≠ 0 := by positivity
  have hM1ne : (M : ℚ) - 1 ≠ 0 := by nlinarith
  have hTne : (T : ℚ) ≠ 0 := by positivity
  have hS : ∑ t ∈ Finset.range T,
      (((rowSq n t : ℚ) - M) / ((M : ℚ) * ((M : ℚ) - 1)))
      = ((∑ t ∈ Finset.range T, (rowSq n t : ℚ)) - T * M)
          / ((M : ℚ) * ((M : ℚ) - 1)) := by
    rw [← Finset.sum_div]
    congr 1
    rw [Finset.sum_sub_distrib, Finset.sum_const, Finset.card_range,
      nsmul_eq_mul]
  have hPbarId : ((M : ℚ) - 1) * Pbar n T M + 1
      = (∑ t ∈ Finset.range T, (rowSq n t : ℚ)) / ((T : ℚ) * M) := by
    unfold Pbar
    rw [hS]
    field_simp
    ring
  have hPeId : (M : ℚ) * Pe n T M
      = (∑ k ∈ Finset.range 3, ((colSum n T k : ℚ)) ^ 2) / ((T : ℚ) ^ 2 * M) := by
    unfold Pe
    rw [Finset.mul_sum]
    rw [Finset.sum_div]
    refine Finset.sum_congr rfl (fun k _ => ?_)
    field_simp
    ring
  have hkey : (M : ℚ) * Pe n T M ≤ ((M : ℚ) - 1) * Pbar n T M + 1 := by
    rw [hPeId, hPbarId]
    rw [div_le_div_iff₀ (by positivity) (by positivity)]
    have hck := colSq_le_key n T
    calc (∑ k ∈ Finset.range 3, ((colSum n T k : ℚ)) ^ 2) * ((T : ℚ) * M)
        ≤ ((T : ℚ) * ∑ t ∈ Finset.range T, (rowSq n t : ℚ)) * ((T : ℚ) * M) :=
          mul_le_mul_of_nonneg_right hck (by positivity)
      _ = (∑ t ∈ Finset.range T, (rowSq n t : ℚ)) * ((T : ℚ) ^ 2 * M) := by
          ring
  have hlow : -(1 - Pe n T M) ≤ Pbar n T M - Pe n T M := by
    have hx : ((M : ℚ) - 1) * (Pbar n T M - Pe n T M) ≥ -(1 - Pe n T M) := by
      nlinarith [hkey]
    rcases le_or_lt 0 (Pbar n T M - Pe n T M) with hge | hlt
    · linarith
    · have : ((M : ℚ) - 1) * (Pbar n T M - Pe n T M)
          ≤ 1 * (Pbar n T M - Pe n T M) := by
        apply mul_le_mul_of_nonpos_right (by linarith) (le_of_lt hlt)
      linarith
  constructor
  · rw [le_div_iff₀ hden]
    linarith
  · rw [div_le_one hden]
    linarith

/-- Claim C5: the reported Fleiss' kappa is `(P̄ − P̄e)/(1 − P̄e)` from the
iteration × category count table; every defined value lies in [−1, 1]; it
is 1 when every iteration's committee is unanimous; and it is flagged as
explicitly undefined (`none`, never a plain number and never a NaN) when
`T < 2` or when `P̄e = 1` with `P̄ < 1`.  Committee size `M ≥ 2` is the
spec's standing assumption (the `M(M−1)` denominator requires it). -/
theorem C5_fleiss_kappa (n : ℕ → ℕ → ℕ) (T M : ℕ) (hM : 2 ≤ M)
    (hrow : ∀ t, t < T → ∑ k ∈ Finset.range 3, n t k = M) :
    (T < 2 → fleiss_kappa n T M = none) ∧
    (Pe n T M = 1 → Pbar n T M < 1 → fleiss_kappa n T M = none) ∧
    (2 ≤ T → Pe n T M ≠ 1 →
      fleiss_kappa n T M
        = some ((Pbar n T M - Pe n T M) / (1 - Pe n T M))) ∧
    (∀ κ, fleiss_kappa n T M = some κ → -1 ≤ κ ∧ κ ≤ 1) ∧
    (2 ≤ T →
      (∀ t, t < T → ∃ k, k < 3 ∧
        (∀ j, j < 3 → n t j = if j = k then M else 0)) →
      fleiss_kappa n T M = some 1) := by
  refine ⟨?_, ?_, ?_, ?_, ?_⟩
  · intro h
    simp [fleiss_kappa, h]
  · intro hPe1 hPlt
    unfold fleiss_kappa
    by_cases h2 : T < 2
    · simp [h2]
    · rw [if_neg h2, if_pos hPe1, if_neg (ne_of_lt hPlt)]
  · intro hT hne
    unfold fleiss_kappa
    rw [if_neg (by omega), if_neg hne]
  · intro κ hκ
    unfold fleiss_kappa at hκ
    by_cases h2 : T < 2
    · simp [h2] at hκ
    · rw [if_neg h2] at hκ
      by_cases hPe1 : Pe n T M = 1
      · rw [if_pos hPe1] at hκ
        by_cases hPb : Pbar n T M = 1
        · rw [if_pos hPb] at hκ
          cases hκ
          norm_num
        · rw [if_neg hPb] at hκ
          cases hκ
      · rw [if_neg hPe1] at hκ
        cases hκ
        exact kappa_formula_bounds n T M (by omega) hM hrow hPe1
  · intro hT huna
    have hMq : (2 : ℚ) ≤ (M : ℚ) := by exact_mod_cast hM
    have hden : (0 : ℚ) < (M : ℚ) * ((M : ℚ) - 1) := by nlinarith
    have hPb : Pbar n T M = 1 := by
      unfold Pbar
      have hterm : ∀ t ∈ Finset.range T,
          ((rowSq n t : ℚ) - M) / ((M : ℚ) * ((M : ℚ) - 1)) = 1 := by
        intro t ht
        obtain ⟨k, hk3, hkk⟩ := huna t (Finset.mem_range.mp ht)
        have hsq : rowSq n t = M ^ 2 := by
          unfold rowSq
          rw [Finset.sum_range_succ, Finset.sum_range_succ,
            Finset.sum_range_succ, Finset.sum_range_zero]
          rw [hkk 0 (by omega), hkk 1 (by omega), hkk 2 (by omega)]
          interval_cases k <;> simp
        rw [hsq]
        rw [div_eq_one_iff_eq (ne_of_gt hden)]
        push_cast
        ring
      rw [Finset.sum_congr rfl hterm, Finset.sum_const, Finset.card_range,
        nsmul_eq_mul, mul_one]
      have hTq : (0 : ℚ) < (T : ℚ) := by
        have : 0 < T := by omega
        exact_mod_cast this
      field_simp
    unfold fleiss_kappa
    rw [if_neg (by omega)]
    by_cases hPe1 : Pe n T M = 1
    · rw [if_pos hPe1, if_pos hPb]
    · rw [if_neg hPe1]
      have hPeLt : Pe n T M < 1 :=
        lt_of_le_of_ne (Pe_le_one n T M (by omega) (by omega) hrow) hPe1
      rw [hPb]
      congr 1
      rw [div_eq_one_iff_eq (by linarith)]

/-- Witness for C5: the constant table with rows (2,1,0), T = 2, M = 3. -/
theorem C5_fleiss_kappa_witness :
    ((2 : ℕ) ≤ 3 ∧ ∀ t, t < 2 →
      ∑ k ∈ Finset.range 3,
        (fun _ k => if k = 0 then 2 else if k = 1 then 1 else 0 : ℕ → ℕ → ℕ) t k
          = 3) ∧
    ((2 < 2 →
        fleiss_kappa
          (fun _ k => if k = 0 then 2 else if k = 1 then 1 else 0) 2 3 = none) ∧
     (Pe (fun _ k => if k = 0 then 2 else if k = 1 then 1 else 0) 2 3 = 1 →
      Pbar (fun _ k => if k = 0 then 2 else if k = 1 then 1 else 0) 2 3 < 1 →
        fleiss_kappa
          (fun _ k => if k = 0 then 2 else if k = 1 then 1 else 0) 2 3 = none) ∧
     (2 ≤ 2 →
      Pe (fun _ k => if k = 0 then 2 else if k = 1 then 1 else 0) 2 3 ≠ 1 →
        fleiss_kappa
          (fun _ k => if k = 0 then 2 else if k = 1 then 1 else 0) 2 3
          = some ((Pbar (fun _ k => if k = 0 then 2 else if k = 1 then 1 else 0) 2 3
              - Pe (fun _ k => if k = 0 then 2 else if k = 1 then 1 else 0) 2 3)
            / (1 - Pe (fun _ k => if k = 0 then 2 else if k = 1 then 1 else 0) 2 3))) ∧
     (∀ κ, fleiss_kappa
          (fun _ k => if k = 0 then 2 else if k = 1 then 1 else 0) 2 3 = some κ →
        -1 ≤ κ ∧ κ ≤ 1) ∧
     (2 ≤ 2 →
      (∀ t, t < 2 → ∃ k, k < 3 ∧
        (∀ j, j < 3 →
          (fun _ k => if k = 0 then 2 else if k = 1 then 1 else 0 : ℕ → ℕ → ℕ) t j
            = if j = k then 3 else 0)) →
        fleiss_kappa
          (fun _ k => if k = 0 then 2 else if k = 1 then 1 else 0) 2 3 = some 1)) :=
  ⟨⟨by decide, by decide⟩,
   C5_fleiss_kappa (fun _ k => if k = 0 then 2 else if k = 1 then 1 else 0) 2 3
     (by decide) (by decide)⟩

/-! ### Entropy of the posterior mean (modelled from the spec) -/

/-- Shannon entropy in bits of a three-component probability vector,
`-Σ p_k log2 p_k`. -/
noncomputable def entropy3 (p : ℝ × ℝ × ℝ) : ℝ :=
  -(p.1 * Real.logb 2 p.1 + p.2.1 * Real.logb 2 p.2.1
    + p.2.2 * Real.logb 2 p.2.2)

/-- Modelled from the spec: `entropy()` of the PosteriorEstimator (absent
backend) is the Shannon entropy in bits of the posterior mean vector. -/
noncomputable def entropy (nY nN n0 : ℕ) : ℝ :=
  entropy3 (((posterior_mean nY nN n0).1 : ℝ),
    ((posterior_mean nY nN n0).2.1 : ℝ),
    ((posterior_mean nY nN n0).2.2 : ℝ))

lemma logTwo_pos : (0 : ℝ) < Real.log 2 := Real.log_pos (by norm_num)

lemma entropy3_eq (a b c : ℝ) :
    entropy3 (a, b, c)
      = (Real.negMulLog a + Real.negMulLog b + Real.negMulLog c)
          / Real.log 2 := by
  unfold entropy3
  simp only [Real.negMulLog, Real.logb]
  field_simp
  ring

lemma mul_log_three_ge (a : ℝ) (ha : 0 < a) :
    a - 1/3 ≤ a * Real.log (3*a) := by
  have h := Real.log_le_sub_one_of_pos (x := 1/(3*a)) (by positivity)
  have hlog : Real.log (1/(3*a)) = - Real.log (3*a) := by
    rw [one_div, Real.log_inv]
  rw [hlog] at h
  have hmul := mul_le_mul_of_nonneg_left h (le_of_lt ha)
  have hinv : a * (1/(3*a)) = 1/3 := by
    rw [mul_one_div, mul_comm 3 a, ← div_div, div_self (ne_of_gt ha)]
  nlinarith [hmul]

lemma mul_log_three_gt (a : ℝ) (ha : 0 < a) (hne : a ≠ 1/3) :
    a - 1/3 < a * Real.log (3*a) := by
  have hargne : 1/(3*a) ≠ 1 := by
    intro h
    apply hne
    field_simp at h
    linarith
  have h := Real.log_lt_sub_one_of_pos (x := 1/(3*a)) (by positivity) hargne
  have hlog : Real.log (1/(3*a)) = - Real.log (3*a) := by
    rw [one_div, Real.log_inv]
  rw [hlog] at h
  have hmul := mul_lt_mul_of_pos_left h ha
  have hinv : a * (1/(3*a)) = 1/3 := by
    rw [mul_one_div, mul_comm 3 a, ← div_div, div_self (ne_of_gt ha)]
  nlinarith [hmul]

lemma entropy3_gap (a b c : ℝ) (ha : 0 < a) (hb : 0 < b) (hc : 0 < c)
    (hsum : a + b + c = 1) :
    Real.logb 2 3 - entropy3 (a, b, c)
      = (a * Real.log (3*a) + b * Real.log (3*b) + c * Real.log (3*c))
          / Real.log 2 := by
  have h3a : Real.log (3*a) = Real.log 3 + Real.log a :=
    Real.log_mul (by norm_num) (ne_of_gt ha)
  have h3b : Real.log (3*b) = Real.log 3 + Real.log b :=
    Real.log_mul (by norm_num) (ne_of_gt hb)
  have h3c : Real.log (3*c) = Real.log 3 + Real.log c :=
    Real.log_mul (by norm_num) (ne_of_gt hc)
  rw [entropy3_eq, Real.logb, h3a, h3b, h3c, div_sub_div_same]
  congr 1
  simp only [Real.negMulLog]
  linear_combination (-(Real.log 3)) * hsum

lemma entropy3_le_log3 (a b c : ℝ) (ha : 0 < a) (hb : 0 < b) (hc : 0 < c)
    (hsum : a + b + c = 1) : entropy3 (a, b, c) ≤ Real.logb 2 3 := by
  have hgap := entropy3_gap a b c ha hb hc hsum
  have h1 := mul_log_three_ge a ha
  have h2 := mul_log_three_ge b hb
  have h3 := mul_log_three_ge c hc
  have hnum : 0 ≤ a * Real.log (3*a) + b * Real.log (3*b) + c * Real.log (3*c) := by
    linarith
  nlinarith [div_nonneg hnum (le_of_lt logTwo_pos)]

lemma entropy3_lt_log3 (a b c : ℝ) (ha : 0 < a) (hb : 0 < b) (hc : 0 < c)
    (hsum : a + b + c = 1) (hne : a ≠ 1/3 ∨ b ≠ 1/3 ∨ c ≠ 1/3) :
    entropy3 (a, b, c) < Real.logb 2 3 := by
  have hgap := entropy3_gap a b c ha hb hc hsum
  have h1 := mul_log_three_ge a ha
  have h2 := mul_log_three_ge b hb
  have h3 := mul_log_three_ge c hc
  have hnum : 0 < a * Real.log (3*a) + b * Real.log (3*b) + c * Real.log (3*c) := by
    rcases hne with h | h | h
    · have := mul_log_three_gt a ha h; linarith
    · have := mul_log_three_gt b hb h; linarith
    · have := mul_log_three_gt c hc h; linarith
  nlinarith [div_pos hnum logTwo_pos]

lemma entropy3_uniform : entropy3 (1/3, 1/3, 1/3) = Real.logb 2 3 := by
  unfold entropy3
  have h : Real.logb 2 (1/3 : ℝ) = - Real.logb 2 3 := by
    rw [one_div, Real.logb_inv]
  simp only []
  rw [h]
  ring

lemma negMulLog_pos_of_mem (x : ℝ) (h0 : 0 < x) (h1 : x < 1) :
    0 < Real.negMulLog x := by
  have hlog : Real.log x < 0 := Real.log_neg h0 h1
  simp only [Real.negMulLog]
  nlinarith

lemma entropy3_pos (a b c : ℝ) (ha : 0 < a) (ha1 : a < 1) (hb : 0 < b)
    (hb1 : b < 1) (hc : 0 < c) (hc1 : c < 1) : 0 < entropy3 (a, b, c) := by
  rw [entropy3_eq]
  have h1 := negMulLog_pos_of_mem a ha ha1
  have h2 := negMulLog_pos_of_mem b hb hb1
  have h3 := negMulLog_pos_of_mem c hc hc1
  positivity

/-- Bounds of the posterior-mean components, shared by the entropy
development. -/
lemma pm_comp_facts (nY nN n0 : ℕ) :
    ((posterior_mean nY nN n0).1 : ℝ)
        = ((nY : ℝ) + 1) / ((nY : ℝ) + nN + n0 + 3) ∧
    ((posterior_mean nY nN n0).2.1 : ℝ)
        = ((nN : ℝ) + 1) / ((nY : ℝ) + nN + n0 + 3) ∧
    ((posterior_mean nY nN n0).2.2 : ℝ)
        = ((n0 : ℝ) + 1) / ((nY : ℝ) + nN + n0 + 3) := by
  unfold posterior_mean
  refine ⟨?_, ?_, ?_⟩ <;> push_cast <;> ring

lemma pm_real_bounds (x N : ℝ) (hx : 0 ≤ x) (hN : x ≤ N) :
    0 < (x + 1) / (N + 3) ∧ (x + 1) / (N + 3) < 1 := by
  have hN0 : 0 ≤ N := le_trans hx hN
  constructor
  · positivity
  · rw [div_lt_one (by linarith)]
    linarith

lemma pm_sum_real (nY nN n0 : ℕ) :
    ((posterior_mean nY nN n0).1 : ℝ) + ((posterior_mean nY nN n0).2.1 : ℝ)
      + ((posterior_mean nY nN n0).2.2 : ℝ) = 1 := by
  obtain ⟨h1, h2, h3⟩ := pm_comp_facts nY nN n0
  rw [h1, h2, h3]
  have : (0:ℝ) < (nY : ℝ) + nN + n0 + 3 := by positivity
  field_simp
  ring

lemma pm_third_iff (a b c : ℕ) :
    ((a : ℝ) + 1) / ((a : ℝ) + b + c + 3) = 1/3 ↔ 2 * a = b + c := by
  have hden : (0:ℝ) < (a : ℝ) + b + c + 3 := by positivity
  rw [div_eq_div_iff (by linarith) (by norm_num)]
  constructor
  · intro h
    have : 2 * (a : ℝ) = (b : ℝ) + c := by linarith
    exact_mod_cast this
  · intro h
    have : 2 * (a : ℝ) = (b : ℝ) + c := by exact_mod_cast h
    linarith

/-- Claim C7: the reported entropy is the Shannon entropy in bits
`-Σ p_k log2 p_k` of the posterior mean vector; it lies in
`(0, log2 3]`; it equals `log2 3` exactly when the posterior mean is the
uniform vector (equivalently, the three counts are equal); and it
strictly decreases as one category's share grows at the expense of a
smaller one. -/
theorem C7_entropy (nY nN n0 : ℕ) :
    entropy nY nN n0
      = -(((posterior_mean nY nN n0).1 : ℝ)
            * Real.logb 2 ((posterior_mean nY nN n0).1 : ℝ)
          + ((posterior_mean nY nN n0).2.1 : ℝ)
            * Real.logb 2 ((posterior_mean nY nN n0).2.1 : ℝ)
          + ((posterior_mean nY nN n0).2.2 : ℝ)
            * Real.logb 2 ((posterior_mean nY nN n0).2.2 : ℝ)) ∧
    (0 < entropy nY nN n0 ∧ entropy nY nN n0 ≤ Real.logb 2 3) ∧
    (entropy nY nN n0 = Real.logb 2 3 ↔ (nY = nN ∧ nN = n0)) ∧
    (∀ a b c δ : ℝ, 0 < δ → δ < b → b ≤ a →
      entropy3 (a + δ, b - δ, c) < entropy3 (a, b, c)) := by
  obtain ⟨hY, hN, h0⟩ := pm_comp_facts nY nN n0
  have hNle : (nY : ℝ) ≤ (nY : ℝ) + nN + n0 := by
    have h1 : (0:ℝ) ≤ (nN : ℝ) := Nat.cast_nonneg nN
    have h2 : (0:ℝ) ≤ (n0 : ℝ) := Nat.cast_nonneg n0
    linarith
  have hNle2 : (nN : ℝ) ≤ (nY : ℝ) + nN + n0 := by
    have h1 : (0:ℝ) ≤ (nY : ℝ) := Nat.cast_nonneg nY
    have h2 : (0:ℝ) ≤ (n0 : ℝ) := Nat.cast_nonneg n0
    linarith
  have hNle3 : (n0 : ℝ) ≤ (nY : ℝ) + nN + n0 := by
    have h1 : (0:ℝ) ≤ (nY : ℝ) := Nat.cast_nonneg nY
    have h2 : (0:ℝ) ≤ (nN : ℝ) := Nat.cast_nonneg nN
    linarith
  have hbY := pm_real_bounds (nY : ℝ) ((nY : ℝ) + nN + n0)
    (Nat.cast_nonneg nY) hNle
  have hbN := pm_real_bounds (nN : ℝ) ((nY : ℝ) + nN + n0)
    (Nat.cast_nonneg nN) hNle2
  have hb0 := pm_real_bounds (n0 : ℝ) ((nY : ℝ) + nN + n0)
    (Nat.cast_nonneg n0) hNle3
  have hsum : ((nY : ℝ) + 1) / ((nY : ℝ) + nN + n0 + 3)
      + ((nN : ℝ) + 1) / ((nY : ℝ) + nN + n0 + 3)
      + ((n0 : ℝ) + 1) / ((nY : ℝ) + nN + n0 + 3) = 1 := by
    have h := pm_sum_real nY nN n0
    rw [hY, hN, h0] at h
    exact h
  have hentropy : entropy nY nN n0
      = entropy3 (((nY : ℝ) + 1) / ((nY : ℝ) + nN + n0 + 3),
          ((nN : ℝ) + 1) / ((nY : ℝ) + nN + n0 + 3),
          ((n0 : ℝ) + 1) / ((nY : ℝ) + nN + n0 + 3)) := by
    unfold entropy
    rw [hY, hN, h0]
  refine ⟨rfl, ⟨?_, ?_⟩, ?_, ?_⟩
  · rw [hentropy]
    exact entropy3_pos _ _ _ hbY.1 hbY.2 hbN.1 hbN.2 hb0.1 hb0.2
  · rw [hentropy]
    exact entropy3_le_log3 _ _ _ hbY.1 hbN.1 hb0.1 hsum
  · rw [hentropy]
    constructor
    · intro heq
      by_contra hne
      have hcounts : 2 * nY ≠ nN + n0 ∨ 2 * nN ≠ nY + n0 ∨ 2 * n0 ≠ nY + nN := by
        omega
      have hne3 : ((nY : ℝ) + 1) / ((nY : ℝ) + nN + n0 + 3) ≠ 1/3 ∨
          ((nN : ℝ) + 1) / ((nY : ℝ) + nN + n0 + 3) ≠ 1/3 ∨
          ((n0 : ℝ) + 1) / ((nY : ℝ) + nN + n0 + 3) ≠ 1/3 := by
        rcases hcounts with h | h | h
        · exact Or.inl (fun hh => h ((pm_third_iff nY nN n0).mp hh))
        · refine Or.inr (Or.inl (fun hh => h ?_))
          have hiff := pm_third_iff nN nY n0
          apply hiff.mp
          rw [← hh]
          ring_nf
        · refine Or.inr (Or.inr (fun hh => h ?_))
          have hiff := pm_third_iff n0 nY nN
          apply hiff.mp
          rw [← hh]
          ring_nf
      have := entropy3_lt_log3 _ _ _ hbY.1 hbN.1 hb0.1 hsum hne3
      linarith
    · intro hand
      obtain ⟨he1, he2⟩ := hand
      subst he1
      subst he2
      have huni : ((nY : ℝ) + 1) / ((nY : ℝ) + nY + nY + 3) = 1/3 := by
        rw [pm_third_iff]
        ring
      rw [huni]
      exact entropy3_uniform
  · intro a b c δ hδ hδb hba
    rw [entropy3_eq, entropy3_eq]
    rw [div_lt_div_iff_of_pos_right logTwo_pos]
    have hconc := Real.strictConcaveOn_negMulLog
    have hD : (0:ℝ) < (a - b) + 2*δ := by nlinarith
    have hxy : a + δ ≠ b - δ := by intro h; nlinarith
    have hx0 : (0:ℝ) ≤ a + δ := by nlinarith
    have hy0 : (0:ℝ) ≤ b - δ := by nlinarith
    have hlam0 : 0 < ((a - b) + δ) / ((a - b) + 2*δ) := div_pos (by nlinarith) hD
    have hmu0 : 0 < δ / ((a - b) + 2*δ) := div_pos hδ hD
    have hlm : ((a - b) + δ) / ((a - b) + 2*δ) + δ / ((a - b) + 2*δ) = 1 := by
      rw [div_add_div_same, div_eq_one_iff_eq (ne_of_gt hD)]
      ring
    have hcomb1 : ((a - b) + δ) / ((a - b) + 2*δ) * (a + δ)
        + δ / ((a - b) + 2*δ) * (b - δ) = a := by
      rw [div_mul_eq_mul_div, div_mul_eq_mul_div, div_add_div_same,
        div_eq_iff (ne_of_gt hD)]
      ring
    have hcomb2 : δ / ((a - b) + 2*δ) * (a + δ)
        + ((a - b) + δ) / ((a - b) + 2*δ) * (b - δ) = b := by
      rw [div_mul_eq_mul_div, div_mul_eq_mul_div, div_add_div_same,
        div_eq_iff (ne_of_gt hD)]
      ring
    have hfa := hconc.2 (Set.mem_Ici.mpr hx0) (Set.mem_Ici.mpr hy0) hxy
      hlam0 hmu0 hlm
    have hfb := hconc.2 (Set.mem_Ici.mpr hx0) (Set.mem_Ici.mpr hy0) hxy
      hmu0 hlam0 (by linarith)
    rw [smul_eq_mul, smul_eq_mul, smul_eq_mul, smul_eq_mul, hcomb1] at hfa
    rw [smul_eq_mul, smul_eq_mul, smul_eq_mul, smul_eq_mul, hcomb2] at hfb
    have hsumf : (((a - b) + δ) / ((a - b) + 2*δ) * Real.negMulLog (a + δ)
          + δ / ((a - b) + 2*δ) * Real.negMulLog (b - δ))
        + (δ / ((a - b) + 2*δ) * Real.negMulLog (a + δ)
          + ((a - b) + δ) / ((a - b) + 2*δ) * Real.negMulLog (b - δ))
        = Real.negMulLog (a + δ) + Real.negMulLog (b - δ) := by
      linear_combination
        (Real.negMulLog (a + δ) + Real.negMulLog (b - δ)) * hlm
    linarith [hfa, hfb, hsumf]

/-- Witness for C7 at counts (5, 2, 0), with the share-transfer part
instantiated at (a,b,c,δ) = (1/2, 1/3, 1/6, 1/6). -/
theorem C7_entropy_witness :
    (entropy 5 2 0
      = -(((posterior_mean 5 2 0).1 : ℝ)
            * Real.logb 2 ((posterior_mean 5 2 0).1 : ℝ)
          + ((posterior_mean 5 2 0).2.1 : ℝ)
            * Real.logb 2 ((posterior_mean 5 2 0).2.1 : ℝ)
          + ((posterior_mean 5 2 0).2.2 : ℝ)
            * Real.logb 2 ((posterior_mean 5 2 0).2.2 : ℝ)) ∧
    (0 < entropy 5 2 0 ∧ entropy 5 2 0 ≤ Real.logb 2 3) ∧
    (entropy 5 2 0 = Real.logb 2 3 ↔ ((5:ℕ) = 2 ∧ (2:ℕ) = 0)) ∧
    (∀ a b c δ : ℝ, 0 < δ → δ < b → b ≤ a →
      entropy3 (a + δ, b - δ, c) < entropy3 (a, b, c))) ∧
    ((0:ℝ) < 1/6 ∧ (1/6:ℝ) < 1/3 ∧ (1/3:ℝ) ≤ 1/2 ∧
      entropy3 (1/2 + 1/6, 1/3 - 1/6, 1/6) < entropy3 (1/2, 1/3, 1/6)) :=
  ⟨C7_entropy 5 2 0,
   by norm_num, by norm_num, by norm_num,
   (C7_entropy 5 2 0).2.2.2 (1/2) (1/3) (1/6) (1/6)
     (by norm_num) (by norm_num) (by norm_num)⟩

/-! ### CommitteeSampler (modelled from the spec) -/

/-- The archetype pool, from `MOCK_ARCHETYPES` in `App.tsx`. -/
def MOCK_ARCHETYPES : List String :=
  ["strict_empiricist", "permissive_interpreter", "skeptic",
   "source_quality_hawk", "contrarian"]

/-- Modelled from the spec: `sample(pool, M)` selects without replacement;
each injected random value `r` picks index `r % remaining` of the
remaining pool, and the picked archetype is removed before the next pick.
The committee size is the number of injected values. -/
def sample (pool : List String) : List ℕ → List String
  | [] => []
  | r :: rs =>
    if pool.length = 0 then []
    else
      pool.getD (r % pool.length) ""
        :: sample (pool.eraseIdx (r % pool.length)) rs

/-- The configuration errors recognised by the spec's error taxonomy. -/
inductive ConfigurationError where
  | invalidCommitteeSize : ConfigurationError
deriving DecidableEq, Repr

/-- Modelled from the spec: a run first validates `1 ≤ M ≤ |pool|` and
fails with a ConfigurationError before any iteration otherwise; then each
iteration's committee is sampled from its own block of injected random
values, with no memory of prior committees. -/
def startRun (pool : List String) (M : ℕ) (blocks : List (List ℕ)) :
    Except ConfigurationError (List (List String)) :=
  if 1 ≤ M ∧ M ≤ pool.length then
    Except.ok (blocks.map (fun block => sample pool (block.take M)))
  else Except.error ConfigurationError.invalidCommitteeSize

/-- A canonical seed for `sample`: the i-th value is already reduced
modulo the size of the remaining pool. -/
def CanonicalSeed (poolLen : ℕ) : List ℕ → Prop
  | [] => True
  | r :: rs => r < poolLen ∧ CanonicalSeed (poolLen - 1) rs

lemma sample_length (pool : List String) (rs : List ℕ)
    (h : rs.length ≤ pool.length) : (sample pool rs).length = rs.length := by
  induction rs generalizing pool with
  | nil => simp [sample]
  | cons r rs ih =>
    have hpool : pool.length ≠ 0 := by
      simp only [List.length_cons] at h
      omega
    simp only [sample, if_neg hpool, List.length_cons]
    rw [ih]
    have hmod : r % pool.length < pool.length := Nat.mod_lt _ (by omega)
    rw [List.length_eraseIdx, if_pos hmod]
    simp only [List.length_cons] at h
    omega

lemma sample_subset (pool : List String) (rs : List ℕ) :
    ∀ x ∈ sample pool rs, x ∈ pool := by
  induction rs generalizing pool with
  | nil => simp [sample]
  | cons r rs ih =>
    intro x hx
    by_cases hpool : pool.length = 0
    · simp [sample, hpool] at hx
    · simp only [sample, if_neg hpool, List.mem_cons] at hx
      rcases hx with rfl | hx
      · have hmod : r % pool.length < pool.length := Nat.mod_lt _ (by omega)
        rw [List.getD_eq_getElem pool "" hmod]
        exact List.getElem_mem hmod
      · exact (List.eraseIdx_sublist pool (r % pool.length)).mem (ih _ _ hx)

lemma getD_not_mem_eraseIdx (pool : List String) (hnd : pool.Nodup)
    (i : ℕ) (hi : i < pool.length) :
    pool.getD i "" ∉ pool.eraseIdx i := by
  rw [List.getD_eq_getElem pool "" hi]
  intro hmem
  obtain ⟨j, hj, hje⟩ := List.getElem_of_mem hmem
  by_cases hcase : j < i
  · rw [List.getElem_eraseIdx_of_lt pool i j hj hcase] at hje
    have := hnd.getElem_inj_iff.mp hje
    omega
  · rw [List.getElem_eraseIdx_of_ge pool i j hj (by omega)] at hje
    have := hnd.getElem_inj_iff.mp hje
    omega

lemma sample_nodup (pool : List String) (rs : List ℕ) (hnd : pool.Nodup)
    (h : rs.length ≤ pool.length) : (sample pool rs).Nodup := by
  induction rs generalizing pool with
  | nil => simp [sample]
  | cons r rs ih =>
    have hpool : pool.length ≠ 0 := by
      simp only [List.length_cons] at h
      omega
    have hmod : r % pool.length < pool.length := Nat.mod_lt _ (by omega)
    simp only [sample, if_neg hpool]
    rw [List.nodup_cons]
    constructor
    · intro hmem
      exact getD_not_mem_eraseIdx pool hnd _ hmod
        (sample_subset _ _ _ hmem)
    · apply ih
      · exact List.Nodup.eraseIdx _ hnd
      · rw [List.length_eraseIdx, if_pos hmod]
        simp only [List.length_cons] at h
        omega

lemma sample_injective (pool : List String) (rs rs' : List ℕ)
    (hnd : pool.Nodup) (hlen : rs.length = rs'.length)
    (hc : CanonicalSeed pool.length rs) (hc' : CanonicalSeed pool.length rs')
    (heq : sample pool rs = sample pool rs') : rs = rs' := by
  induction rs generalizing pool rs' with
  | nil =>
    cases rs' with
    | nil => rfl
    | cons r rs' => simp at hlen
  | cons r rs ih =>
    cases rs' with
    | nil => simp at hlen
    | cons r' rs' =>
      obtain ⟨hr, hcrs⟩ := hc
      obtain ⟨hr', hcrs'⟩ := hc'
      have hpool : pool.length ≠ 0 := by omega
      simp only [sample, if_neg hpool, List.cons.injEq] at heq
      obtain ⟨hhead, htail⟩ := heq
      have hrmod : r % pool.length = r := Nat.mod_eq_of_lt hr
      have hrmod' : r' % pool.length = r' := Nat.mod_eq_of_lt hr'
      rw [hrmod, hrmod'] at hhead htail
      rw [List.getD_eq_getElem pool "" hr, List.getD_eq_getElem pool "" hr']
        at hhead
      have hrr : r = r' := hnd.getElem_inj_iff.mp hhead
      subst hrr
      have hlen' : rs.length = rs'.length := by
        simpa using hlen
      have herased : (pool.eraseIdx r).length = pool.length - 1 := by
        rw [List.length_eraseIdx, if_pos hr]
      have := ih (pool.eraseIdx r) rs' (List.Nodup.eraseIdx _ hnd) hlen'
        (by rw [herased]; exact hcrs) (by rw [herased]; exact hcrs') htail
      rw [this]

lemma sample_surjective (pool : List String) (target : List String)
    (hnd : pool.Nodup) (hts : ∀ x ∈ target, x ∈ pool)
    (htn : target.Nodup) (hlen : target.length ≤ pool.length) :
    ∃ rs, CanonicalSeed pool.length rs ∧ rs.length = target.length ∧
      sample pool rs = target := by
  induction target generalizing pool with
  | nil => exact ⟨[], trivial, rfl, rfl⟩
  | cons a rest ih =>
    have hmem : a ∈ pool := hts a (List.mem_cons_self a rest)
    have hidx : pool.indexOf a < pool.length := List.indexOf_lt_length.mpr hmem
    have hpool : pool.length ≠ 0 := by omega
    have herase : pool.eraseIdx (pool.indexOf a) = pool.erase a :=
      List.eraseIdx_indexOf_eq_erase a pool
    have herasedLen : (pool.erase a).length = pool.length - 1 :=
      List.length_erase_of_mem hmem
    obtain ⟨hna, hrestn⟩ := List.nodup_cons.mp htn
    have hrest : ∀ x ∈ rest, x ∈ pool.erase a := by
      intro x hx
      have hxp : x ∈ pool := hts x (List.mem_cons_of_mem a hx)
      have hxa : x ≠ a := fun h => hna (h ▸ hx)
      exact (List.mem_erase_of_ne hxa).mpr hxp
    have hlen' : rest.length ≤ (pool.erase a).length := by
      rw [herasedLen]
      simp only [List.length_cons] at hlen
      omega
    obtain ⟨rs, hcrs, hrslen, hrseq⟩ :=
      ih (pool.erase a) (List.Nodup.erase a hnd) hrest hrestn hlen'
    refine ⟨pool.indexOf a :: rs, ⟨hidx, ?_⟩, by simp [hrslen], ?_⟩
    · rw [← herasedLen]
      exact hcrs
    · simp only [sample, if_neg hpool]
      rw [Nat.mod_eq_of_lt hidx]
      rw [List.getD_eq_getElem pool "" hidx, List.getElem_indexOf hidx]
      rw [herase, hrseq]

/-- Claim C3: an out-of-range committee size `M` fails with a
ConfigurationError before any iteration executes; on a valid
configuration every iteration's committee has exactly `M` pairwise
distinct members drawn from the pool, each committee is a function of its
own iteration's injected random block alone (no memory of prior
committees), and on canonical seeds the selection map is a bijection onto
the ordered `M`-subsets of the pool (exactly one seed per committee —
uniform seeds give a uniform committee draw without replacement). -/
theorem C3_committee_sampler (pool : List String) (M : ℕ)
    (blocks : List (List ℕ)) (hnd : pool.Nodup) :
    (¬ (1 ≤ M ∧ M ≤ pool.length) →
      startRun pool M blocks
        = Except.error ConfigurationError.invalidCommitteeSize) ∧
    (1 ≤ M → M ≤ pool.length →
      startRun pool M blocks
        = Except.ok (blocks.map (fun block => sample pool (block.take M))) ∧
      ∀ block ∈ blocks, M ≤ block.length →
        (sample pool (block.take M)).length = M ∧
        (sample pool (block.take M)).Nodup ∧
        (∀ x ∈ sample pool (block.take M), x ∈ pool)) ∧
    (∀ rs rs', CanonicalSeed pool.length rs → CanonicalSeed pool.length rs' →
      rs.length = rs'.length →
      sample pool rs = sample pool rs' → rs = rs') ∧
    (∀ target : List String, target.Nodup → (∀ x ∈ target, x ∈ pool) →
      target.length ≤ pool.length →
      ∃ rs, CanonicalSeed pool.length rs ∧ rs.length = target.length ∧
        sample pool rs = target) := by
  refine ⟨?_, ?_, ?_, ?_⟩
  · intro h
    simp [startRun, h]
  · intro h1 h2
    refine ⟨by simp [startRun, h1, h2], ?_⟩
    intro block _hb hM
    have htake : (block.take M).length = M := by
      rw [List.length_take]
      omega
    refine ⟨?_, ?_, ?_⟩
    · rw [sample_length pool _ (by omega)]
      exact htake
    · exact sample_nodup pool _ hnd (by omega)
    · exact sample_subset pool _
  · intro rs rs' hc hc' hlen heq
    exact sample_injective pool rs rs' hnd hlen hc hc' heq
  · intro target htn hts hlen
    exact sample_surjective pool target hnd hts htn hlen

/-- Witness for C3 on the five mock archetypes with `M = 3`: committee
size 0 is rejected, and valid configurations produce distinct committees. -/
theorem C3_committee_sampler_witness :
    MOCK_ARCHETYPES.Nodup ∧
    ((¬ ((1:ℕ) ≤ 3 ∧ (3:ℕ) ≤ MOCK_ARCHETYPES.length) →
      startRun MOCK_ARCHETYPES 3 [[0,1,2]]
        = Except.error ConfigurationError.invalidCommitteeSize) ∧
    ((1:ℕ) ≤ 3 → (3:ℕ) ≤ MOCK_ARCHETYPES.length →
      startRun MOCK_ARCHETYPES 3 [[0,1,2]]
        = Except.ok ([[0,1,2]].map
            (fun block => sample MOCK_ARCHETYPES (block.take 3))) ∧
      ∀ block ∈ [[0,1,2]], 3 ≤ block.length →
        (sample MOCK_ARCHETYPES (block.take 3)).length = 3 ∧
        (sample MOCK_ARCHETYPES (block.take 3)).Nodup ∧
        (∀ x ∈ sample MOCK_ARCHETYPES (block.take 3), x ∈ MOCK_ARCHETYPES)) ∧
    (∀ rs rs', CanonicalSeed MOCK_ARCHETYPES.length rs →
      CanonicalSeed MOCK_ARCHETYPES.length rs' →
      rs.length = rs'.length →
      sample MOCK_ARCHETYPES rs = sample MOCK_ARCHETYPES rs' → rs = rs') ∧
    (∀ target : List String, target.Nodup →
      (∀ x ∈ target, x ∈ MOCK_ARCHETYPES) →
      target.length ≤ MOCK_ARCHETYPES.length →
      ∃ rs, CanonicalSeed MOCK_ARCHETYPES.length rs ∧
        rs.length = target.length ∧ sample MOCK_ARCHETYPES rs = target)) :=
  ⟨by decide, C3_committee_sampler MOCK_ARCHETYPES 3 [[0,1,2]] (by decide)⟩

/-! ### ConvergenceDetector (modelled from the spec) -/

/-- Modelled from the spec: the KL divergence used by the (absent backend)
ConvergenceDetector, `D_KL(P ‖ Q) = Σ_k P(k) · log2(P(k)/Q(k))`. -/
noncomputable def klDiv (p q : ℝ × ℝ × ℝ) : ℝ :=
  p.1 * Real.logb 2 (p.1 / q.1) + p.2.1 * Real.logb 2 (p.2.1 / q.2.1)
    + p.2.2 * Real.logb 2 (p.2.2 / q.2.2)

/-- Detector state: the previous posterior snapshot (nullable) and the
consecutive-below-threshold counter, initialized to (none, 0). -/
structure ConvState where
  prev : Option (ℝ × ℝ × ℝ)
  count : ℕ

/-- Modelled from the spec: on a new snapshot with no previous snapshot,
record it with counter 0; otherwise increment the counter when
`D_KL < ε` and reset it to 0 when not. -/
noncomputable def convStep (ε : ℝ) (s : ConvState) (cur : ℝ × ℝ × ℝ) :
    ConvState :=
  match s.prev with
  | none => ⟨some cur, 0⟩
  | some p =>
    if klDiv cur p < ε then ⟨some cur, s.count + 1⟩ else ⟨some cur, 0⟩

/-- Modelled from the spec: the loop feeds snapshots to the detector in
iteration order (iterations numbered from 1) and stops at the first
iteration whose counter has reached the patience `τ`. -/
noncomputable def detect (ε : ℝ) (τ : ℕ) :
    ℕ → ConvState → List (ℝ × ℝ × ℝ) → Option ℕ
  | _, _, [] => none
  | i, s, d :: ds =>
    if τ ≤ (convStep ε s d).count then some i
    else detect ε τ (i + 1) (convStep ε s d) ds

/-- The converged-at iteration of a run whose per-iteration posterior
snapshots are `snaps`. -/
noncomputable def convergedAt (ε : ℝ) (τ : ℕ)
    (snaps : List (ℝ × ℝ × ℝ)) : Option ℕ :=
  detect ε τ 1 ⟨none, 0⟩ snaps

/-- The detector counter after the first `m` snapshots, with no early
stopping. -/
noncomputable def counterAfter (ε : ℝ) (snaps : List (ℝ × ℝ × ℝ))
    (m : ℕ) : ℕ :=
  ((snaps.take m).foldl (convStep ε) ⟨none, 0⟩).count

lemma detect_some_iff (ε : ℝ) (τ : ℕ) (ds : List (ℝ × ℝ × ℝ)) :
    ∀ (k : ℕ) (s : ConvState) (j : ℕ),
    (detect ε τ k s ds = some j ↔
      ∃ m, m < ds.length ∧ j = k + m ∧
        τ ≤ ((ds.take (m+1)).foldl (convStep ε) s).count ∧
        ∀ m2, m2 < m → ((ds.take (m2+1)).foldl (convStep ε) s).count < τ) := by
  induction ds with
  | nil =>
    intro k s j
    simp [detect]
  | cons d ds ih =>
    intro k s j
    by_cases hτ : τ ≤ (convStep ε s d).count
    · simp only [detect, if_pos hτ]
      constructor
      · intro h
        refine ⟨0, by simp, by simpa using (Option.some.inj h).symm, ?_, ?_⟩
        · simpa using hτ
        · intro m2 hm2
          omega
      · rintro ⟨m, hm, hj, hle, hprev⟩
        rcases Nat.eq_zero_or_pos m with rfl | hmpos
        · simp [hj]
        · exfalso
          have := hprev 0 hmpos
          simp only [List.take_succ, List.take_zero] at this
          simp at this
          omega
    · simp only [detect, if_neg hτ]
      rw [ih (k+1) (convStep ε s d) j]
      constructor
      · rintro ⟨m, hm, hj, hle, hprev⟩
        refine ⟨m + 1, by simpa using hm, by omega, ?_, ?_⟩
        · simpa [List.take_succ_cons] using hle
        · intro m2 hm2
          rcases Nat.eq_zero_or_pos m2 with rfl | hm2pos
          · simpa using hτ
          · obtain ⟨m3, rfl⟩ :=
              Nat.exists_eq_succ_of_ne_zero (n := m2) (by omega)
            have := hprev m3 (by omega)
            simpa [List.take_succ_cons] using this
      · rintro ⟨m, hm, hj, hle, hprev⟩
        rcases Nat.eq_zero_or_pos m with rfl | hmpos
        · exfalso
          simp only [List.take_succ_cons, List.take_zero] at hle
          simp at hle
          omega
        · obtain ⟨m3, rfl⟩ :=
            Nat.exists_eq_succ_of_ne_zero (n := m) (by omega)
          refine ⟨m3, by simpa using hm, by omega, ?_, ?_⟩
          · simpa [List.take_succ_cons] using hle
          · intro m2 hm2
            have := hprev (m2 + 1) (by omega)
            simpa [List.take_succ_cons] using this

/-- Claim C4: the detector records the first snapshot with counter 0 (the
first iteration never signals convergence); on later snapshots the
counter is incremented when `D_KL < ε` and reset to 0 otherwise; and the
run reports iteration `i` as converged-at exactly when `i` is the first
iteration whose consecutive-below-ε counter has reached the patience
`τ`. -/
theorem C4_convergence_detector (ε : ℝ) (τ : ℕ) (hτ : 1 ≤ τ) :
    (∀ cur, convStep ε ⟨none, 0⟩ cur = ⟨some cur, 0⟩) ∧
    (∀ s p cur, s.prev = some p →
      convStep ε s cur
        = if klDiv cur p < ε then ⟨some cur, s.count + 1⟩
          else ⟨some cur, 0⟩) ∧
    (∀ snaps, convergedAt ε τ snaps ≠ some 1) ∧
    (∀ snaps i, convergedAt ε τ snaps = some i ↔
      (∃ m, m < snaps.length ∧ i = 1 + m ∧
        τ ≤ counterAfter ε snaps (m + 1) ∧
        ∀ m2, m2 < m → counterAfter ε snaps (m2 + 1) < τ)) := by
  have hchar : ∀ snaps i, convergedAt ε τ snaps = some i ↔
      (∃ m, m < snaps.length ∧ i = 1 + m ∧
        τ ≤ counterAfter ε snaps (m + 1) ∧
        ∀ m2, m2 < m → counterAfter ε snaps (m2 + 1) < τ) := by
    intro snaps i
    unfold convergedAt counterAfter
    exact detect_some_iff ε τ snaps 1 ⟨none, 0⟩ i
  refine ⟨fun cur => rfl, ?_, ?_, hchar⟩
  · intro s p cur hp
    unfold convStep
    rw [hp]
  · intro snaps h
    rw [hchar snaps 1] at h
    obtain ⟨m, hm, h1, hle, _hprev⟩ := h
    have hm0 : m = 0 := by omega
    subst hm0
    rcases snaps with _ | ⟨d, ds⟩
    · simp at hm
    · unfold counterAfter at hle
      simp only [List.take_succ_cons, List.take_zero] at hle
      simp only [List.foldl_cons, List.foldl_nil] at hle
      have : (convStep ε ⟨none, 0⟩ d).count = 0 := rfl
      omega

/-- Witness for C4 at ε = 1, τ = 1 and the singleton snapshot list
[(1/3, 1/3, 1/3)]: a one-iteration run never converges. -/
theorem C4_convergence_detector_witness :
    (1 : ℕ) ≤ 1 ∧
    ((∀ cur, convStep 1 ⟨none, 0⟩ cur = ⟨some cur, 0⟩) ∧
    (∀ s p cur, s.prev = some p →
      convStep 1 s cur
        = if klDiv cur p < 1 then ⟨some cur, s.count + 1⟩
          else ⟨some cur, 0⟩) ∧
    (∀ snaps, convergedAt 1 1 snaps ≠ some 1) ∧
    (∀ snaps i, convergedAt 1 1 snaps = some i ↔
      (∃ m, m < snaps.length ∧ i = 1 + m ∧
        1 ≤ counterAfter 1 snaps (m + 1) ∧
        ∀ m2, m2 < m → counterAfter 1 snaps (m2 + 1) < 1))) :=
  ⟨by decide, C4_convergence_detector 1 1 (by decide)⟩

/-! ### mockSimulation event loop (App.tsx) -/

/-- `ConvergencePoint` from `App.tsx`. -/
structure ConvergencePoint where
  iteration : ℕ
  p_yes : ℝ
  p_no : ℝ
  p_null : ℝ

/-- `VerdictDistribution` from `App.tsx`. -/
structure VerdictDistribution where
  question : String
  p_yes : ℝ
  p_no : ℝ
  p_null : ℝ
  num_iterations : ℕ
  committee_size : ℕ
  converged_at_iteration : Option ℕ
  credible_intervals_95 : (ℝ × ℝ) × (ℝ × ℝ) × (ℝ × ℝ)
  entropy : ℝ
  fleiss_kappa : ℝ
  effective_sample_size : ℝ
  ballots : List Ballot
  convergence : List ConvergencePoint

/-- The events the run emits to its observers: one snapshot per
iteration, one verdict at termination. -/
inductive RunEvent where
  | snap : ConvergencePoint → RunEvent
  | verdict : VerdictDistribution → RunEvent

/-- `NUM_ITER` from `mockSimulation` in `App.tsx`. -/
def NUM_ITER : ℕ := 5

/-- `COMMITTEE` from `mockSimulation` in `App.tsx`. -/
def COMMITTEE : ℕ := 3

/-- The vote cast from one `Math.random()` roll in `mockSimulation`:
`r < 0.55 ? "YES" : r < 0.85 ? "NO" : "NULL"`. -/
def mockVote (r : ℚ) : Vote :=
  if r < 55/100 then Vote.YES else if r < 85/100 then Vote.NO else Vote.NULLV

/-- One ballot pushed by `mockSimulation`: the ambient `Math.random()`
calls are injected as one archetype pick, one vote roll and three rubric
rolls per ballot.  Evidence ids get `slice(0,2)` as supporting and
`slice(2,3)` as refuting. -/
def mockBallot (evidence : List ℕ) (iter : ℕ)
    (t : ℕ × ℚ × (ℚ × ℚ × ℚ)) : Ballot :=
  { iteration := iter
    archetype := MOCK_ARCHETYPES.getD (t.1 % MOCK_ARCHETYPES.length) ""
    model := "mock-local"
    vote := mockVote t.2.1
    supporting_evidence_ids := evidence.take 2
    refuting_evidence_ids := (evidence.drop 2).take 1
    rubric_scores :=
      [("evidence_quality", t.2.2.1), ("claim_specificity", t.2.2.2.1),
       ("source_reliability", t.2.2.2.2)]
    reasoning :=
      if mockVote t.2.1 = Vote.YES then "Evidence supports the claim."
      else if mockVote t.2.1 = Vote.NO then "Evidence contradicts the claim."
      else "Insufficient evidence to decide." }

/-- The `COMMITTEE` ballots pushed during one iteration, reading the
injected randomness at indices `(iter-1)*COMMITTEE + k`. -/
def iterBallots (evidence : List ℕ) (rb : ℕ → ℕ × ℚ × (ℚ × ℚ × ℚ))
    (iter : ℕ) : List Ballot :=
  (List.range COMMITTEE).map
    (fun k => mockBallot evidence iter (rb ((iter - 1) * COMMITTEE + k)))

/-- Cumulative vote frequencies over all ballots so far, from
`allBallots.filter(...).length / total` in `mockSimulation`. -/
noncomputable def freqsR (bs : List Ballot) : ℝ × ℝ × ℝ :=
  ((voteCount bs Vote.YES : ℝ) / bs.length,
   (voteCount bs Vote.NO : ℝ) / bs.length,
   (voteCount bs Vote.NULLV : ℝ) / bs.length)

/-- All ballots accumulated through the first `j` iterations. -/
def allBallotsUpTo (evidence : List ℕ) (rb : ℕ → ℕ × ℚ × (ℚ × ℚ × ℚ))
    (j : ℕ) : List Ballot :=
  (List.range j).flatMap (fun i => iterBallots evidence rb (i + 1))

/-- The snapshot event emitted at the end of iteration `idx`, carrying the
iteration index and the cumulative vote shares. -/
noncomputable def snapAt (evidence : List ℕ)
    (rb : ℕ → ℕ × ℚ × (ℚ × ℚ × ℚ)) (idx : ℕ) : RunEvent :=
  RunEvent.snap ⟨idx, (freqsR (allBallotsUpTo evidence rb idx)).1,
    (freqsR (allBallotsUpTo evidence rb idx)).2.1,
    (freqsR (allBallotsUpTo evidence rb idx)).2.2⟩

/-- The final verdict assembled by `mockSimulation` at `iter ≥ NUM_ITER`:
per-category normal-approximation intervals with `z = 1.96`, hard-coded
`converged_at_iteration: null`, `entropy: 0`, `fleiss_kappa: 0`,
`effective_sample_size = allBallots.length`, `convergence: []`. -/
noncomputable def mkMockVerdict (question : String) (acc : List Ballot) :
    VerdictDistribution :=
  let total := acc.length
  let p_yes := (voteCount acc Vote.YES : ℝ) / total
  let p_no := (voteCount acc Vote.NO : ℝ) / total
  let p_null := (voteCount acc Vote.NULLV : ℝ) / total
  let seY := Real.sqrt (p_yes * (1 - p_yes) / total)
  let seN := Real.sqrt (p_no * (1 - p_no) / total)
  let seU := Real.sqrt (p_null * (1 - p_null) / total)
  { question := question
    p_yes := p_yes
    p_no := p_no
    p_null := p_null
    num_iterations := NUM_ITER
    committee_size := COMMITTEE
    converged_at_iteration := none
    credible_intervals_95 :=
      ((clamp01 (p_yes - 196/100 * seY), clamp01 (p_yes + 196/100 * seY)),
       (clamp01 (p_no - 196/100 * seN), clamp01 (p_no + 196/100 * seN)),
       (clamp01 (p_null - 196/100 * seU), clamp01 (p_null + 196/100 * seU)))
    entropy := 0
    fleiss_kappa := 0
    effective_sample_size := (total : ℝ)
    ballots := acc
    convergence := [] }

/-- The interval-timer loop of `mockSimulation`: each tick increments
`iter`, pushes the committee's ballots, emits one snapshot with the
cumulative frequencies, and on `iter ≥ NUM_ITER` clears the timer and
emits the verdict.  `fuel` is `NUM_ITER - iter`, the number of remaining
ticks. -/
noncomputable def mockRun (question : String) (evidence : List ℕ)
    (rb : ℕ → ℕ × ℚ × (ℚ × ℚ × ℚ)) :
    ℕ → ℕ → List Ballot → List RunEvent
  | 0, _, _ => []
  | fuel + 1, iter, acc =>
    let acc2 := acc ++ iterBallots evidence rb (iter + 1)
    let f := freqsR acc2
    let ev := RunEvent.snap ⟨iter + 1, f.1, f.2.1, f.2.2⟩
    if NUM_ITER ≤ iter + 1 then
      [ev, RunEvent.verdict (mkMockVerdict question acc2)]
    else ev :: mockRun question evidence rb fuel (iter + 1) acc2

/-- `mockSimulation` from `App.tsx`, as the list of events it emits over
its full run. -/
noncomputable def mockSimulation (question : String) (evidence : List ℕ)
    (rb : ℕ → ℕ × ℚ × (ℚ × ℚ × ℚ)) : List RunEvent :=
  mockRun question evidence rb NUM_ITER 0 []

/-- Whether an event is a snapshot. -/
def isSnap : RunEvent → Bool
  | RunEvent.snap _ => true
  | RunEvent.verdict _ => false

/-- Whether an event is a verdict. -/
def isVerdict : RunEvent → Bool
  | RunEvent.snap _ => false
  | RunEvent.verdict _ => true

lemma allBallotsUpTo_succ (evidence : List ℕ)
    (rb : ℕ → ℕ × ℚ × (ℚ × ℚ × ℚ)) (j : ℕ) :
    allBallotsUpTo evidence rb (j + 1)
      = allBallotsUpTo evidence rb j ++ iterBallots evidence rb (j + 1) := by
  unfold allBallotsUpTo
  rw [List.range_succ, List.flatMap_append]
  simp

lemma mockRun_spec (question : String) (evidence : List ℕ)
    (rb : ℕ → ℕ × ℚ × (ℚ × ℚ × ℚ)) :
    ∀ fuel iter, 1 ≤ fuel → iter + fuel = NUM_ITER →
    mockRun question evidence rb fuel iter (allBallotsUpTo evidence rb iter)
      = ((List.range fuel).map (fun j => snapAt evidence rb (iter + j + 1)))
        ++ [RunEvent.verdict
            (mkMockVerdict question (allBallotsUpTo evidence rb NUM_ITER))] := by
  intro fuel
  induction fuel with
  | zero => intro iter h1 _; omega
  | succ fuel ih =>
    intro iter h1 h2
    rw [mockRun]
    rcases Nat.eq_zero_or_pos fuel with rfl | hfpos
    · have hlast : NUM_ITER ≤ iter + 1 := by omega
      rw [if_pos hlast]
      rw [← allBallotsUpTo_succ evidence rb iter]
      have hrange : List.range (0 + 1) = [0] := rfl
      rw [hrange]
      simp only [List.map_cons, List.map_nil, List.cons_append,
        List.nil_append, snapAt, Nat.add_zero]
      have hiter : iter + 1 = NUM_ITER := by omega
      rw [hiter]
    · have hnotlast : ¬ NUM_ITER ≤ iter + 1 := by omega
      rw [if_neg hnotlast]
      rw [← allBallotsUpTo_succ evidence rb iter]
      rw [ih (iter + 1) (by omega) (by omega)]
      rw [List.range_succ_eq_map]
      simp only [List.map_cons, List.map_map, List.cons_append, Nat.add_zero]
      have hmaps : List.map (fun j => snapAt evidence rb (iter + 1 + j + 1))
            (List.range fuel)
          = List.map ((fun j => snapAt evidence rb (iter + j + 1)) ∘ Nat.succ)
            (List.range fuel) := by
        refine List.map_congr_left (fun j _ => ?_)
        simp only [Function.comp_apply]
        congr 1
        omega
      rw [← hmaps]
      exact rfl

/-- Claim C8: over a full `mockSimulation` run, exactly one snapshot event
is emitted per completed iteration, the i-th snapshot carrying iteration
index `i+1` and the cumulative per-category vote shares; exactly one
verdict event is emitted, at termination, strictly after every snapshot
(it is the final event); no run emits a verdict more than once. -/
theorem C8_mock_events (question : String) (evidence : List ℕ)
    (rb : ℕ → ℕ × ℚ × (ℚ × ℚ × ℚ)) :
    mockSimulation question evidence rb
      = ((List.range NUM_ITER).map (fun j => snapAt evidence rb (j + 1)))
        ++ [RunEvent.verdict
            (mkMockVerdict question (allBallotsUpTo evidence rb NUM_ITER))] ∧
    (∀ j, snapAt evidence rb (j + 1)
      = RunEvent.snap ⟨j + 1,
          (freqsR (allBallotsUpTo evidence rb (j + 1))).1,
          (freqsR (allBallotsUpTo evidence rb (j + 1))).2.1,
          (freqsR (allBallotsUpTo evidence rb (j + 1))).2.2⟩) ∧
    ((mockSimulation question evidence rb).filter isSnap).length = NUM_ITER ∧
    ((mockSimulation question evidence rb).filter isVerdict).length = 1 ∧
    (mockSimulation question evidence rb).getLast?
      = some (RunEvent.verdict
          (mkMockVerdict question (allBallotsUpTo evidence rb NUM_ITER))) := by
  have hchar := mockRun_spec question evidence rb NUM_ITER 0 (by norm_num [NUM_ITER])
    (by omega)
  have hbase : allBallotsUpTo evidence rb 0 = [] := rfl
  rw [hbase] at hchar
  have hmock : mockSimulation question evidence rb
      = ((List.range NUM_ITER).map (fun j => snapAt evidence rb (j + 1)))
        ++ [RunEvent.verdict
            (mkMockVerdict question (allBallotsUpTo evidence rb NUM_ITER))] := by
    unfold mockSimulation
    rw [hchar]
    simp only [Nat.zero_add]
  refine ⟨hmock, fun j => rfl, ?_, ?_, ?_⟩
  · rw [hmock]
    rw [List.filter_append, List.length_append, List.filter_map]
    simp [snapAt, isSnap, Function.comp_def]
  · rw [hmock]
    rw [List.filter_append, List.length_append, List.filter_map]
    simp [snapAt, isSnap, isVerdict, Function.comp_def]
  · rw [hmock]
    rw [List.getLast?_append]
    rfl

/-! ### OrchestrationLoop assembly and determinism (modelled from the spec) -/

/-- The index of a vote category in the Fleiss table (YES, NO, NULL). -/
def voteIdx : Vote → ℕ
  | Vote.YES => 0
  | Vote.NO => 1
  | Vote.NULLV => 2

/-- The iteration × category count table built from the full ballot
history: `n t k` counts the ballots of iteration `t+1` voting category
`k`. -/
def tableOf (bs : List Ballot) (t k : ℕ) : ℕ :=
  (bs.filter (fun b => b.iteration = t + 1 ∧ voteIdx b.vote = k)).length

/-- Modelled from the spec: the final VerdictDistribution the (absent
backend) OrchestrationLoop assembles — posterior means, credible
intervals, entropy, Fleiss' kappa, effective sample size, converged-at
iteration, full ballot and snapshot history. -/
structure CoreVerdict where
  question : String
  posterior : ℚ × ℚ × ℚ
  intervals : (ℚ × ℚ) × (ℚ × ℚ) × (ℚ × ℚ)
  entropyBits : ℝ
  kappa : Option ℚ
  neff : ℚ
  ballots : List Ballot
  convergence : List (ℚ × ℚ × ℚ)
  convergedAtIter : Option ℕ

/-- Modelled from the spec: one run of the core over a recorded ballot
sequence, with every randomized operation (committee sampling uses
`sample`, the Dirichlet percentile simulation uses `draws`) taking its
random source as an explicit injected argument. -/
noncomputable def runCore (question : String) (T M : ℕ) (ε : ℝ) (τ : ℕ)
    (bs : List Ballot) (draws : List (ℚ × ℚ × ℚ)) : CoreVerdict :=
  let c := countVotes (bs.map (fun b => b.vote))
  let snaps := (List.range T).map (fun t =>
    let ct := countVotes
      ((bs.filter (fun b => b.iteration ≤ t + 1)).map (fun b => b.vote))
    posterior_mean ct.1 ct.2.1 ct.2.2)
  { question := question
    posterior := posterior_mean c.1 c.2.1 c.2.2
    intervals := credible_interval draws (95/100)
    entropyBits := entropy c.1 c.2.1 c.2.2
    kappa := fleiss_kappa (tableOf bs) T M
    neff := n_eff bs
    ballots := bs
    convergence := snaps
    convergedAtIter := convergedAt ε τ
      (snaps.map (fun p => ((p.1 : ℝ), (p.2.1 : ℝ), (p.2.2 : ℝ)))) }

/-- Claim C9: the assembled VerdictDistribution is a pure function of the
question, configuration, recorded ballot sequence and injected random
draws — two runs over identical inputs (identical ballot sequence,
identical injected random-source state) produce identical verdict records
in every field; and each randomized component reads only its injected
source (`sample` its value stream, `credible_interval` its draws), so
equal injected sources give equal committees and equal intervals. -/
theorem C9_determinism (q q2 : String) (T T2 M M2 : ℕ) (ε ε2 : ℝ)
    (τ τ2 : ℕ) (bs bs2 : List Ballot) (draws draws2 : List (ℚ × ℚ × ℚ))
    (hq : q = q2) (hT : T = T2) (hM : M = M2) (hε : ε = ε2) (hτ : τ = τ2)
    (hbs : bs = bs2) (hdraws : draws = draws2) :
    runCore q T M ε τ bs draws = runCore q2 T2 M2 ε2 τ2 bs2 draws2 ∧
    (runCore q T M ε τ bs draws).ballots = bs ∧
    (runCore q T M ε τ bs draws).posterior
      = posterior_mean (countVotes (bs.map (fun b => b.vote))).1
          (countVotes (bs.map (fun b => b.vote))).2.1
          (countVotes (bs.map (fun b => b.vote))).2.2 ∧
    (runCore q T M ε τ bs draws).intervals = credible_interval draws (95/100) ∧
    (runCore q T M ε τ bs draws).kappa = fleiss_kappa (tableOf bs) T M ∧
    (runCore q T M ε τ bs draws).neff = n_eff bs ∧
    (∀ pool : List String, ∀ rs rs2 : List ℕ, rs = rs2 →
      sample pool rs = sample pool rs2) := by
  subst hq
  subst hT
  subst hM
  subst hε
  subst hτ
  subst hbs
  subst hdraws
  exact ⟨rfl, rfl, rfl, rfl, rfl, rfl, fun pool rs rs2 h => by rw [h]⟩

/-- Witness for C9: two textually identical runs over a one-ballot
history coincide. -/
theorem C9_determinism_witness :
    runCore "q" 1 3 0 2 essCounterexample [(1, 1, 1)]
      = runCore "q" 1 3 0 2 essCounterexample [(1, 1, 1)] ∧
    (runCore "q" 1 3 0 2 essCounterexample [(1, 1, 1)]).ballots
      = essCounterexample ∧
    (runCore "q" 1 3 0 2 essCounterexample [(1, 1, 1)]).posterior
      = posterior_mean
          (countVotes (essCounterexample.map (fun b => b.vote))).1
          (countVotes (essCounterexample.map (fun b => b.vote))).2.1
          (countVotes (essCounterexample.map (fun b => b.vote))).2.2 ∧
    (runCore "q" 1 3 0 2 essCounterexample [(1, 1, 1)]).intervals
      = credible_interval [(1, 1, 1)] (95/100) ∧
    (runCore "q" 1 3 0 2 essCounterexample [(1, 1, 1)]).kappa
      = fleiss_kappa (tableOf essCounterexample) 1 3 ∧
    (runCore "q" 1 3 0 2 essCounterexample [(1, 1, 1)]).neff
      = n_eff essCounterexample ∧
    (∀ pool : List String, ∀ rs rs2 : List ℕ, rs = rs2 →
      sample pool rs = sample pool rs2) :=
  C9_determinism "q" "q" 1 1 3 3 0 0 2 2 essCounterexample essCounterexample
    [(1, 1, 1)] [(1, 1, 1)] rfl rfl rfl rfl rfl rfl rfl

/-! ### VeritasOracle.sol (contracts/VeritasOracle.sol) -/

/-- A stored verdict, from `struct Verdict` in `VeritasOracle.sol`.
`bytes32` and `uint256` fields are modelled as natural numbers; the
contract only stores and returns them, no arithmetic is performed. -/
structure SolVerdict where
  questionHash : ℕ
  merkleRoot : ℕ
  pYes : ℕ
  pNo : ℕ
  pNull : ℕ
  fleissKappa : ℕ
  timestamp : ℕ
deriving DecidableEq, Repr

/-- Contract storage: the `verdicts` array and the `owner` address. -/
structure OracleState where
  verdicts : List SolVerdict
  owner : ℕ
deriving DecidableEq, Repr

/-- `postVerdict` from `VeritasOracle.sol`: the `onlyOwner` modifier
reverts with "Not owner" unless `msg.sender == owner`; otherwise one
`Verdict` holding the six arguments plus `block.timestamp` is pushed and
the pre-push array length is returned as the id.  A revert is modelled as
`Except.error`, which returns no new state (storage is rolled back). -/
def postVerdict (st : OracleState) (sender blockTimestamp : ℕ)
    (qh mr py pn p0 fk : ℕ) : Except String (OracleState × ℕ) :=
  if sender = st.owner then
    Except.ok
      ({ st with verdicts := st.verdicts ++
          [⟨qh, mr, py, pn, p0, fk, blockTimestamp⟩] },
       st.verdicts.length)
  else Except.error "Not owner"

/-- `getVerdict` from `VeritasOracle.sol` (out-of-range access reverts,
modelled by `Option`). -/
def getVerdict (st : OracleState) (i : ℕ) : Option SolVerdict :=
  st.verdicts[i]?

/-- `verdictCount` from `VeritasOracle.sol`. -/
def verdictCount (st : OracleState) : ℕ :=
  st.verdicts.length

/-- Claim C10: a `postVerdict` call from any address other than `owner`
reverts with "Not owner" (leaving the verdicts array unchanged, since a
revert discards the state); a call from `owner` appends exactly one
verdict holding the six supplied fields plus the block timestamp, returns
the pre-call array length as the new id, leaves every previously stored
verdict unchanged, and increases `verdictCount` by exactly one. -/
theorem C10_postVerdict (st : OracleState) (sender ts qh mr py pn p0 fk : ℕ) :
    (sender ≠ st.owner →
      postVerdict st sender ts qh mr py pn p0 fk = Except.error "Not owner") ∧
    (sender = st.owner →
      postVerdict st sender ts qh mr py pn p0 fk =
        Except.ok
          ({ st with verdicts := st.verdicts ++ [⟨qh, mr, py, pn, p0, fk, ts⟩] },
           verdictCount st) ∧
      ∀ st' id, postVerdict st sender ts qh mr py pn p0 fk =
          Except.ok (st', id) →
        id = verdictCount st ∧
        st'.verdicts = st.verdicts ++ [⟨qh, mr, py, pn, p0, fk, ts⟩] ∧
        (∀ j, j < verdictCount st → getVerdict st' j = getVerdict st j) ∧
        verdictCount st' = verdictCount st + 1) := by
  constructor
  · intro hne
    simp [postVerdict, hne]
  · intro heq
    subst heq
    refine ⟨by simp [postVerdict, verdictCount], ?_⟩
    intro st' id h
    have hok : postVerdict st st.owner ts qh mr py pn p0 fk =
        Except.ok
          ({ st with verdicts := st.verdicts ++ [⟨qh, mr, py, pn, p0, fk, ts⟩] },
           st.verdicts.length) := by
      simp [postVerdict]
    rw [hok] at h
    have hpair := Except.ok.inj h
    obtain ⟨rfl, rfl⟩ : _ ∧ _ :=
      ⟨congrArg Prod.fst hpair, congrArg Prod.snd hpair⟩
    refine ⟨rfl, rfl, ?_, by simp [verdictCount]⟩
    intro j hj
    simp only [getVerdict, verdictCount] at *
    rw [List.getElem?_append_left hj]

/-- Witness for C10 at a concrete state: a non-owner call reverts and an
owner call appends the verdict with id 0. -/
theorem C10_postVerdict_witness :
    ((7 : ℕ) ≠ (OracleState.mk [] 5).owner →
      postVerdict (OracleState.mk [] 5) 7 100 1 2 3 4 5 6 =
        Except.error "Not owner") ∧
    ((7 : ℕ) = (OracleState.mk [] 5).owner →
      postVerdict (OracleState.mk [] 5) 7 100 1 2 3 4 5 6 =
        Except.ok
          ({ OracleState.mk [] 5 with
              verdicts := [] ++ [⟨1, 2, 3, 4, 5, 6, 100⟩] },
           verdictCount (OracleState.mk [] 5)) ∧
      ∀ st' id, postVerdict (OracleState.mk [] 5) 7 100 1 2 3 4 5 6 =
          Except.ok (st', id) →
        id = verdictCount (OracleState.mk [] 5) ∧
        st'.verdicts = [] ++ [⟨1, 2, 3, 4, 5, 6, 100⟩] ∧
        (∀ j, j < verdictCount (OracleState.mk [] 5) →
          getVerdict st' j = getVerdict (OracleState.mk [] 5) j) ∧
        verdictCount st' = verdictCount (OracleState.mk [] 5) + 1) :=
  C10_postVerdict (OracleState.mk [] 5) 7 100 1 2 3 4 5 6

end VeritasSwarm
